import Mathlib

/-!
Verification of the generic search toolkit: the frontier containers
(Stack, Queue, PriorityQueue) from `utils.py` and the four search
algorithms (depth-first, breadth-first, uniform-cost, A*) from
`search.py`, together with the abstract problem interface from
`problem.py`.

Embedding conventions:
* A `Problem` is a record of the three capabilities of the abstract
  `Problem` class: `getStartState`, `isGoalState`, `getSuccessors`.
  States and actions are type parameters; step costs and priorities are
  natural numbers (the spec requires step costs to be non-negative).
* Python's unbounded `while` loops become fuel-indexed recursive
  functions returning `Option (Option (List A))`: the outer `none`
  means the fuel ran out before the loop finished, `some none` is the
  Python `None` "no solution" sentinel, and `some (some path)` is a
  returned path.
* `Stack` keeps its top at the head of the list (Python appends at the
  right end and pops from the right end; both realize the same LIFO
  discipline).  `Queue` appends at the right end and pops from the
  head, exactly like the `deque` in the source.  `PriorityQueue` keeps
  the multiset of `(priority, count, item)` entries as a list and pops
  the entry that is lexicographically least on `(priority, count)`,
  which is the observable behaviour of `heapq` on such tuples when all
  counts are distinct.
* Raising an exception (popping an empty container) is modelled by
  `Option.none` results of `pop`.
-/

namespace AISearch

/-- The abstract search problem interface from `problem.py`:
`getStartState`, `isGoalState` and `getSuccessors`, the latter
returning a list of `(successor, action, stepCost)` triples. -/
structure Problem (S A : Type) where
  getStartState : S
  isGoalState : S → Bool
  getSuccessors : S → List (S × A × Nat)

/-- LIFO container from `utils.py`; the top of the stack is the head
of `list`. -/
structure Stack (α : Type) where
  list : List α

/-- `Stack.push` pushes an item on top of the stack. -/
def Stack.push {α : Type} (s : Stack α) (item : α) : Stack α :=
  ⟨item :: s.list⟩

/-- `Stack.pop` removes the most recently pushed item; popping an
empty stack raises in Python, modelled by `none`. -/
def Stack.pop {α : Type} (s : Stack α) : Option (α × Stack α) :=
  match s.list with
  | [] => none
  | x :: xs => some (x, ⟨xs⟩)

/-- `Stack.isEmpty` tests `len(list) == 0`. -/
def Stack.isEmpty {α : Type} (s : Stack α) : Bool :=
  s.list.length == 0

/-- FIFO container from `utils.py`, a `deque`: push appends at the
right end, pop removes from the left end. -/
structure Queue (α : Type) where
  queue : List α

/-- `Queue.push` enqueues an item at the right end. -/
def Queue.push {α : Type} (q : Queue α) (item : α) : Queue α :=
  ⟨q.queue ++ [item]⟩

/-- `Queue.pop` dequeues the earliest enqueued item; popping an empty
queue raises in Python, modelled by `none`. -/
def Queue.pop {α : Type} (q : Queue α) : Option (α × Queue α) :=
  match q.queue with
  | [] => none
  | x :: xs => some (x, ⟨xs⟩)

/-- `Queue.isEmpty` tests `len(queue) == 0`. -/
def Queue.isEmpty {α : Type} (q : Queue α) : Bool :=
  q.queue.length == 0

/-- Priority queue from `utils.py`: a heap of
`(priority, count, item)` entries plus the monotone insertion
counter used as tie-breaker. -/
structure PriorityQueue (α : Type) where
  heap : List (Nat × Nat × α)
  count : Nat

/-- The empty priority queue produced by `__init__`. -/
def PriorityQueue.empty {α : Type} : PriorityQueue α :=
  ⟨[], 0⟩

/-- `PriorityQueue.push` inserts the entry
`(priority, self.count, item)` and increments the counter. -/
def PriorityQueue.push {α : Type} (pq : PriorityQueue α) (item : α)
    (priority : Nat) : PriorityQueue α :=
  ⟨(priority, pq.count, item) :: pq.heap, pq.count + 1⟩

/-- Extraction of the entry that is lexicographically least on
`(priority, count)`: this is what `heapq.heappop` yields on tuples
whose `(priority, count)` prefixes are pairwise distinct.  Returns the
chosen entry together with the remaining entries. -/
def popMinEntry {α : Type} :
    List (Nat × Nat × α) → Option ((Nat × Nat × α) × List (Nat × Nat × α))
  | [] => none
  | x :: xs =>
    match popMinEntry xs with
    | none => some (x, [])
    | some (y, ys) =>
      if x.1 < y.1 ∨ (x.1 = y.1 ∧ x.2.1 ≤ y.2.1) then some (x, xs)
      else some (y, x :: ys)

/-- `PriorityQueue.pop` pops the entry with the lowest priority
(ties broken by the insertion counter) and returns its item; popping
an empty heap raises in Python, modelled by `none`.  The counter is
not changed by `pop`. -/
def PriorityQueue.pop {α : Type} (pq : PriorityQueue α) :
    Option (α × PriorityQueue α) :=
  match popMinEntry pq.heap with
  | none => none
  | some (e, rest) => some (e.2.2, ⟨rest, pq.count⟩)

/-- `PriorityQueue.isEmpty` tests `len(heap) == 0`. -/
def PriorityQueue.isEmpty {α : Type} (pq : PriorityQueue α) : Bool :=
  pq.heap.length == 0

/-- A priority queue obtained from the empty one by a sequence of
`push` operations; `ops` lists the pushed `(item, priority)` pairs in
order. -/
def buildPQ {α : Type} (ops : List (α × Nat)) : PriorityQueue α :=
  ops.foldl (fun q op => q.push op.1 op.2) PriorityQueue.empty

variable {S A : Type}

/-- The main loop of `depthFirstSearch`: fringe of
`(state, path_to_state)` pairs in a `Stack`, visited set checked on
pop, goal test after marking visited, successors not yet visited
pushed with the extended path. -/
def dfsLoop [DecidableEq S] (p : Problem S A) :
    Nat → Stack (S × List A) → List S → Option (Option (List A))
  | 0, _, _ => none
  | fuel + 1, fringe, visited =>
    if fringe.isEmpty then some none
    else
      match fringe.pop with
      | none => some none
      | some ((state, path), rest) =>
        if state ∈ visited then dfsLoop p fuel rest visited
        else
          if p.isGoalState state then some (some path)
          else
            dfsLoop p fuel
              ((p.getSuccessors state).foldl
                (fun f t =>
                  if t.1 ∈ state :: visited then f
                  else f.push (t.1, path ++ [t.2.1]))
                rest)
              (state :: visited)

/-- `depthFirstSearch`: seed the stack with
`(getStartState(), [])` and run the loop with the given fuel. -/
def depthFirstSearch [DecidableEq S] (p : Problem S A) (fuel : Nat) :
    Option (Option (List A)) :=
  dfsLoop p fuel (Stack.push ⟨[]⟩ (p.getStartState, [])) []

/-- The main loop of `breadthFirstSearch`: identical to the DFS loop
except that the fringe is a FIFO `Queue`. -/
def bfsLoop [DecidableEq S] (p : Problem S A) :
    Nat → Queue (S × List A) → List S → Option (Option (List A))
  | 0, _, _ => none
  | fuel + 1, fringe, visited =>
    if fringe.isEmpty then some none
    else
      match fringe.pop with
      | none => some none
      | some ((state, path), rest) =>
        if state ∈ visited then bfsLoop p fuel rest visited
        else
          if p.isGoalState state then some (some path)
          else
            bfsLoop p fuel
              ((p.getSuccessors state).foldl
                (fun f t =>
                  if t.1 ∈ state :: visited then f
                  else f.push (t.1, path ++ [t.2.1]))
                rest)
              (state :: visited)

/-- `breadthFirstSearch`: seed the queue with
`(getStartState(), [])` and run the loop with the given fuel. -/
def breadthFirstSearch [DecidableEq S] (p : Problem S A) (fuel : Nat) :
    Option (Option (List A)) :=
  bfsLoop p fuel (Queue.push ⟨[]⟩ (p.getStartState, [])) []

/-- The main loop of `uniformCostSearch`: fringe entries are
`(state, path, cost)` triples pushed with priority `cost`; successors
are pushed with `new_cost = cost + stepCost`. -/
def ucsLoop [DecidableEq S] (p : Problem S A) :
    Nat → PriorityQueue (S × List A × Nat) → List S →
      Option (Option (List A))
  | 0, _, _ => none
  | fuel + 1, fringe, visited =>
    if fringe.isEmpty then some none
    else
      match fringe.pop with
      | none => some none
      | some ((state, path, cost), rest) =>
        if state ∈ visited then ucsLoop p fuel rest visited
        else
          if p.isGoalState state then some (some path)
          else
            ucsLoop p fuel
              ((p.getSuccessors state).foldl
                (fun f t =>
                  if t.1 ∈ state :: visited then f
                  else
                    f.push (t.1, path ++ [t.2.1], cost + t.2.2)
                      (cost + t.2.2))
                rest)
              (state :: visited)

/-- `uniformCostSearch`: seed the priority queue with
`(getStartState(), [], 0)` at priority `0` and run the loop. -/
def uniformCostSearch [DecidableEq S] (p : Problem S A) (fuel : Nat) :
    Option (Option (List A)) :=
  ucsLoop p fuel (PriorityQueue.empty.push (p.getStartState, [], 0) 0) []

/-- `nullHeuristic` estimates the remaining cost as 0 for every
state. -/
def nullHeuristic : S → Nat := fun _ => 0

/-- The main loop of `aStarSearch`: fringe entries are
`(state, path, g_cost)` triples pushed with priority
`f_cost = new_g_cost + heuristic(successor)`. -/
def aStarLoop [DecidableEq S] (p : Problem S A) (heuristic : S → Nat) :
    Nat → PriorityQueue (S × List A × Nat) → List S →
      Option (Option (List A))
  | 0, _, _ => none
  | fuel + 1, fringe, visited =>
    if fringe.isEmpty then some none
    else
      match fringe.pop with
      | none => some none
      | some ((state, path, g), rest) =>
        if state ∈ visited then aStarLoop p heuristic fuel rest visited
        else
          if p.isGoalState state then some (some path)
          else
            aStarLoop p heuristic fuel
              ((p.getSuccessors state).foldl
                (fun f t =>
                  if t.1 ∈ state :: visited then f
                  else
                    f.push (t.1, path ++ [t.2.1], g + t.2.2)
                      ((g + t.2.2) + heuristic t.1))
                rest)
              (state :: visited)

/-- `aStarSearch`: seed the priority queue with
`(start_state, [], 0)` at priority `0 + heuristic(start_state)` and
run the loop. -/
def aStarSearch [DecidableEq S] (p : Problem S A)
    (heuristic : S → Nat) (fuel : Nat) : Option (Option (List A)) :=
  aStarLoop p heuristic fuel
    (PriorityQueue.empty.push (p.getStartState, [], 0)
      (0 + heuristic p.getStartState))
    []

/-- `Reaches p s acts t c`: replaying the action list `acts` from
state `s` through `getSuccessors` is well-defined, ends in state `t`,
and the chosen `(successor, action, stepCost)` triples have total
step cost `c`.  Paths grow at the right end, exactly as the
algorithms build them. -/
inductive Reaches (p : Problem S A) : S → List A → S → Nat → Prop
  | nil (s : S) : Reaches p s [] s 0
  | snoc {s t t' : S} {acts : List A} {a : A} {c w : Nat} :
      Reaches p s acts t c → (t', a, w) ∈ p.getSuccessors t →
      Reaches p s (acts ++ [a]) t' (c + w)

/-- A heuristic is admissible when it never overestimates the true
remaining cost to a goal. -/
def Admissible (p : Problem S A) (h : S → Nat) : Prop :=
  ∀ s acts t c, Reaches p s acts t c → p.isGoalState t = true → h s ≤ c

/-- A heuristic is consistent when it satisfies the triangle
inequality across every successor edge. -/
def Consistent (p : Problem S A) (h : S → Nat) : Prop :=
  ∀ s t, t ∈ p.getSuccessors s → h s ≤ t.2.2 + h t.1

/-- Concrete example problem: states 0,1,2, start 0, goal 2; a direct
edge of cost 5 and a two-step route of total cost 2. -/
def egProblem : Problem Nat Nat :=
  ⟨0, fun s => s == 2,
    fun s =>
      if s = 0 then [(1, 0, 1), (2, 1, 5)]
      else if s = 1 then [(2, 0, 1)] else []⟩

/-- Concrete example problem with unit step costs everywhere. -/
def egUnit : Problem Nat Nat :=
  ⟨0, fun s => s == 2,
    fun s =>
      if s = 0 then [(1, 0, 1), (2, 1, 1)]
      else if s = 1 then [(2, 0, 1)] else []⟩

/-- Concrete example problem whose start state is already a goal. -/
def egSelf : Problem Nat Nat :=
  ⟨2, fun s => s == 2, fun _ => []⟩

/-- Concrete example problem whose goal (state 3) is unreachable. -/
def egBlocked : Problem Nat Nat :=
  ⟨0, fun s => s == 3,
    fun s =>
      if s = 0 then [(1, 0, 1), (2, 1, 5)]
      else if s = 1 then [(2, 0, 1)] else []⟩

/-- The lexicographic order on `(priority, count)` that `heapq`
realizes on the pushed entries. -/
def lexLe {α : Type} (a b : Nat × Nat × α) : Prop :=
  a.1 < b.1 ∨ (a.1 = b.1 ∧ a.2.1 ≤ b.2.1)

theorem lexLe_refl {α : Type} (a : Nat × Nat × α) : lexLe a a :=
  Or.inr ⟨rfl, le_refl _⟩

theorem lexLe_trans {α : Type} {a b c : Nat × Nat × α}
    (h₁ : lexLe a b) (h₂ : lexLe b c) : lexLe a c := by
  simp only [lexLe] at *
  omega

theorem lexLe_of_not_lexLe {α : Type} {a b : Nat × Nat × α}
    (h : ¬ lexLe a b) : lexLe b a := by
  simp only [lexLe] at *
  omega

theorem popMinEntry_none_iff {α : Type} {l : List (Nat × Nat × α)} :
    popMinEntry l = none ↔ l = [] := by
  cases l with
  | nil => simp [popMinEntry]
  | cons x xs =>
    simp only [popMinEntry]
    cases h : popMinEntry xs with
    | none => simp
    | some yr =>
      obtain ⟨y, ys⟩ := yr
      by_cases hc : x.1 < y.1 ∨ (x.1 = y.1 ∧ x.2.1 ≤ y.2.1) <;> simp [hc]

theorem popMinEntry_perm {α : Type} {l rest : List (Nat × Nat × α)}
    {e : Nat × Nat × α} (h : popMinEntry l = some (e, rest)) :
    l.Perm (e :: rest) := by
  induction l generalizing e rest with
  | nil => simp [popMinEntry] at h
  | cons x xs ih =>
    simp only [popMinEntry] at h
    split at h
    · rename_i hxs
      simp only [Option.some.injEq, Prod.mk.injEq] at h
      obtain ⟨he, hrest⟩ := h
      subst he; subst hrest
      have : xs = [] := popMinEntry_none_iff.mp hxs
      subst this
      exact List.Perm.refl _
    · rename_i y ys hxs
      split at h
      · simp only [Option.some.injEq, Prod.mk.injEq] at h
        obtain ⟨he, hrest⟩ := h
        subst he; subst hrest
        exact List.Perm.refl _
      · simp only [Option.some.injEq, Prod.mk.injEq] at h
        obtain ⟨he, hrest⟩ := h
        subst he; subst hrest
        exact List.Perm.trans ((ih hxs).cons x) (List.Perm.swap _ x ys)

theorem popMinEntry_min {α : Type} {l rest : List (Nat × Nat × α)}
    {e : Nat × Nat × α} (h : popMinEntry l = some (e, rest)) :
    ∀ x ∈ l, lexLe e x := by
  induction l generalizing e rest with
  | nil => simp [popMinEntry] at h
  | cons x xs ih =>
    simp only [popMinEntry] at h
    split at h
    · rename_i hxs
      simp only [Option.some.injEq, Prod.mk.injEq] at h
      obtain ⟨he, _⟩ := h
      subst he
      have : xs = [] := popMinEntry_none_iff.mp hxs
      subst this
      intro z hz
      simp only [List.mem_singleton] at hz
      subst hz
      exact lexLe_refl _
    · rename_i y ys hxs
      split at h
      · rename_i hc
        simp only [Option.some.injEq, Prod.mk.injEq] at h
        obtain ⟨he, _⟩ := h
        subst he
        intro z hz
        rcases List.mem_cons.mp hz with hz | hz
        · subst hz; exact lexLe_refl _
        · exact lexLe_trans hc (ih hxs z hz)
      · rename_i hc
        simp only [Option.some.injEq, Prod.mk.injEq] at h
        obtain ⟨he, _⟩ := h
        subst he
        intro z hz
        rcases List.mem_cons.mp hz with hz | hz
        · subst hz; exact lexLe_of_not_lexLe hc
        · exact ih hxs z hz

theorem popMinEntry_cons_isSome {α : Type} (x : Nat × Nat × α)
    (xs : List (Nat × Nat × α)) :
    ∃ e rest, popMinEntry (x :: xs) = some (e, rest) := by
  cases h : popMinEntry (x :: xs) with
  | none => exact absurd (popMinEntry_none_iff.mp h) (by simp)
  | some er =>
    obtain ⟨e, rest⟩ := er
    exact ⟨e, rest, rfl⟩

section FoldLemmas

variable {α β : Type} (G : β → Prop) [DecidablePred G] (payload : β → α)
variable (prio : β → Nat)

theorem stack_fold_list (l : List β) (s : Stack α) :
    ∀ e, e ∈ ((l.foldl
        (fun f t => if G t then f else f.push (payload t)) s).list) ↔
      e ∈ s.list ∨ ∃ t, t ∈ l ∧ ¬ G t ∧ e = payload t := by
  induction l generalizing s with
  | nil => simp
  | cons t ts ih =>
    intro e
    simp only [List.foldl_cons]
    by_cases h : G t
    · simp only [if_pos h, ih, List.mem_cons]
      constructor
      · rintro (he | ⟨u, hu, hGu, he⟩)
        · exact Or.inl he
        · exact Or.inr ⟨u, Or.inr hu, hGu, he⟩
      · rintro (he | ⟨u, hu | hu, hGu, he⟩)
        · exact Or.inl he
        · subst hu; exact absurd h hGu
        · exact Or.inr ⟨u, hu, hGu, he⟩
    · simp only [if_neg h, ih]
      simp only [Stack.push, List.mem_cons]
      constructor
      · rintro ((he | he) | ⟨u, hu, hGu, he⟩)
        · exact Or.inr ⟨t, Or.inl rfl, h, he⟩
        · exact Or.inl he
        · exact Or.inr ⟨u, Or.inr hu, hGu, he⟩
      · rintro (he | ⟨u, hu | hu, hGu, he⟩)
        · exact Or.inl (Or.inr he)
        · subst hu; exact Or.inl (Or.inl he)
        · exact Or.inr ⟨u, hu, hGu, he⟩

/-- The list of payloads actually enqueued by one expansion pass, in
push order. -/
def pushQList (G : β → Prop) [DecidablePred G] (payload : β → α) :
    List β → List α
  | [] => []
  | t :: ts =>
    if G t then pushQList G payload ts
    else payload t :: pushQList G payload ts

theorem queue_fold_eq (l : List β) (q : Queue α) :
    (l.foldl (fun f t => if G t then f else f.push (payload t)) q).queue
      = q.queue ++ pushQList G payload l := by
  induction l generalizing q with
  | nil => simp [pushQList]
  | cons t ts ih =>
    simp only [List.foldl_cons, pushQList]
    by_cases h : G t
    · rw [if_pos h, if_pos h, ih]
    · rw [if_neg h, if_neg h, ih]
      simp [Queue.push]

theorem mem_pushQList {l : List β} {e : α} :
    e ∈ pushQList G payload l ↔ ∃ t, t ∈ l ∧ ¬ G t ∧ e = payload t := by
  induction l with
  | nil => simp [pushQList]
  | cons t ts ih =>
    simp only [pushQList]
    by_cases h : G t
    · simp only [if_pos h, ih, List.mem_cons]
      constructor
      · rintro ⟨u, hu, hGu, he⟩
        exact ⟨u, Or.inr hu, hGu, he⟩
      · rintro ⟨u, hu | hu, hGu, he⟩
        · subst hu; exact absurd h hGu
        · exact ⟨u, hu, hGu, he⟩
    · simp only [if_neg h, List.mem_cons, ih]
      constructor
      · rintro (he | ⟨u, hu, hGu, he⟩)
        · exact ⟨t, Or.inl rfl, h, he⟩
        · exact ⟨u, Or.inr hu, hGu, he⟩
      · rintro ⟨u, hu | hu, hGu, he⟩
        · subst hu; exact Or.inl he
        · exact Or.inr ⟨u, hu, hGu, he⟩

/-- The list of heap entries actually pushed by one expansion pass,
in push order, threading the insertion counter starting at `c`. -/
def pushPQList (G : β → Prop) [DecidablePred G] (payload : β → α)
    (prio : β → Nat) : Nat → List β → List (Nat × Nat × α)
  | _, [] => []
  | c, t :: ts =>
    if G t then pushPQList G payload prio c ts
    else (prio t, c, payload t) :: pushPQList G payload prio (c + 1) ts

theorem pq_fold_eq (l : List β) (q : PriorityQueue α) :
    l.foldl (fun f t => if G t then f else f.push (payload t) (prio t)) q
      = ⟨(pushPQList G payload prio q.count l).reverse ++ q.heap,
          q.count + (pushPQList G payload prio q.count l).length⟩ := by
  induction l generalizing q with
  | nil => simp [pushPQList]
  | cons t ts ih =>
    simp only [List.foldl_cons, pushPQList]
    by_cases h : G t
    · rw [if_pos h, if_pos h, ih]
    · rw [if_neg h, if_neg h, ih]
      simp only [PriorityQueue.push, List.reverse_cons, List.append_assoc,
        List.singleton_append, List.length_cons, PriorityQueue.mk.injEq]
      refine ⟨by trivial, by omega⟩

theorem mem_pushPQList {l : List β} {c : Nat} {e : Nat × Nat × α}
    (h : e ∈ pushPQList G payload prio c l) :
    (∃ t, t ∈ l ∧ ¬ G t ∧ e.1 = prio t ∧ e.2.2 = payload t) ∧
      c ≤ e.2.1 ∧ e.2.1 < c + l.length := by
  induction l generalizing c with
  | nil => simp [pushPQList] at h
  | cons t ts ih =>
    simp only [pushPQList] at h
    by_cases hG : G t
    · rw [if_pos hG] at h
      obtain ⟨⟨u, hu, hGu, he⟩, hc₁, hc₂⟩ := ih h
      exact ⟨⟨u, List.mem_cons_of_mem _ hu, hGu, he⟩, hc₁,
        by simp only [List.length_cons]; omega⟩
    · rw [if_neg hG] at h
      rcases List.mem_cons.mp h with he | he
      · subst he
        exact ⟨⟨t, List.mem_cons_self _ _, hG, rfl, rfl⟩, le_refl _,
          by simp only [List.length_cons]; omega⟩
      · obtain ⟨⟨u, hu, hGu, hpe⟩, hc₁, hc₂⟩ := ih he
        exact ⟨⟨u, List.mem_cons_of_mem _ hu, hGu, hpe⟩, by omega,
          by simp only [List.length_cons]; omega⟩

theorem pushPQList_mem_of {l : List β} {t : β} (ht : t ∈ l)
    (hG : ¬ G t) (c : Nat) :
    ∃ cnt, (prio t, cnt, payload t) ∈ pushPQList G payload prio c l := by
  induction l generalizing c with
  | nil => simp at ht
  | cons u us ih =>
    simp only [pushPQList]
    rcases List.mem_cons.mp ht with hu | hu
    · subst hu
      rw [if_neg hG]
      exact ⟨c, List.mem_cons_self _ _⟩
    · by_cases hGu : G u
      · rw [if_pos hGu]
        exact ih hu c
      · rw [if_neg hGu]
        obtain ⟨cnt, hcnt⟩ := ih hu (c + 1)
        exact ⟨cnt, List.mem_cons_of_mem _ hcnt⟩

theorem pushPQList_counts_pairwise (l : List β) (c : Nat) :
    List.Pairwise (fun a b => a.2.1 < b.2.1)
      (pushPQList G payload prio c l) := by
  induction l generalizing c with
  | nil => simp [pushPQList]
  | cons t ts ih =>
    simp only [pushPQList]
    by_cases h : G t
    · rw [if_pos h]; exact ih c
    · rw [if_neg h]
      refine List.Pairwise.cons ?_ (ih (c + 1))
      intro e he
      have := (mem_pushPQList G payload prio he).2.1
      show c < e.2.1
      omega

end FoldLemmas

theorem aStarLoop_nullHeuristic [DecidableEq S] (p : Problem S A) :
    ∀ fuel fringe visited,
      aStarLoop p nullHeuristic fuel fringe visited =
        ucsLoop p fuel fringe visited := by
  intro fuel
  induction fuel with
  | zero => intro fr vis; rfl
  | succ n ih =>
    intro fr vis
    by_cases he : fr.isEmpty
    · simp [aStarLoop, ucsLoop, he]
    · cases hp : fr.pop with
      | none => simp [aStarLoop, ucsLoop, he, hp]
      | some x =>
        obtain ⟨⟨state, path, g⟩, rest⟩ := x
        by_cases hv : state ∈ vis
        · simp [aStarLoop, ucsLoop, he, hp, hv, ih]
        · by_cases hg : p.isGoalState state
          · simp [aStarLoop, ucsLoop, he, hp, hv, hg]
          · simp [aStarLoop, ucsLoop, he, hp, hv, hg, nullHeuristic, ih]

/-- Claim C6: `aStarSearch` with the null heuristic produces exactly
the same result as `uniformCostSearch` on every problem and at every
fuel: the same path when one is found and the same sentinel
otherwise. -/
theorem c6_null_heuristic_reduces_astar_to_ucs [DecidableEq S]
    (p : Problem S A) (fuel : Nat) :
    aStarSearch p nullHeuristic fuel = uniformCostSearch p fuel := by
  unfold aStarSearch uniformCostSearch
  rw [aStarLoop_nullHeuristic]
  rfl

/-- Claim C9: popping an empty `Stack`, `Queue` or `PriorityQueue`
fails loudly (the Python `pop` raises; in this embedding the
exceptional outcome is `none`, never an item), and whenever `isEmpty`
has returned `false` — which is exactly how the four search loops
guard every `pop` — the pop succeeds, so the algorithms can never hit
the error branch. -/
theorem c9_empty_pop_fails_guarded_pops_succeed :
    (∀ (α : Type), (Stack.pop (⟨[]⟩ : Stack α)) = none) ∧
    (∀ (α : Type), (Queue.pop (⟨[]⟩ : Queue α)) = none) ∧
    (∀ (α : Type) (c : Nat),
      (PriorityQueue.pop (⟨[], c⟩ : PriorityQueue α)) = none) ∧
    (∀ (α : Type) (s : Stack α), s.isEmpty = false →
      ∃ x s', s.pop = some (x, s')) ∧
    (∀ (α : Type) (q : Queue α), q.isEmpty = false →
      ∃ x q', q.pop = some (x, q')) ∧
    (∀ (α : Type) (pq : PriorityQueue α), pq.isEmpty = false →
      ∃ x pq', pq.pop = some (x, pq')) := by
  refine ⟨fun α => rfl, fun α => rfl, fun α c => rfl, ?_, ?_, ?_⟩
  · intro α s hs
    obtain ⟨l⟩ := s
    cases l with
    | nil => simp [Stack.isEmpty] at hs
    | cons x xs => exact ⟨x, ⟨xs⟩, rfl⟩
  · intro α q hq
    obtain ⟨l⟩ := q
    cases l with
    | nil => simp [Queue.isEmpty] at hq
    | cons x xs => exact ⟨x, ⟨xs⟩, rfl⟩
  · intro α pq hpq
    obtain ⟨l, c⟩ := pq
    cases l with
    | nil => simp [PriorityQueue.isEmpty] at hpq
    | cons x xs =>
      obtain ⟨e, rest, he⟩ := popMinEntry_cons_isSome x xs
      exact ⟨e.2.2, ⟨rest, c⟩, by simp [PriorityQueue.pop, he]⟩

theorem c9_witness :
    (∃ x s', Stack.pop (⟨[3]⟩ : Stack Nat) = some (x, s')) ∧
    (∃ x q', Queue.pop (⟨[3]⟩ : Queue Nat) = some (x, q')) ∧
    (∃ x pq',
      PriorityQueue.pop (⟨[(0, 0, 3)], 1⟩ : PriorityQueue Nat) =
        some (x, pq')) :=
  ⟨c9_empty_pop_fails_guarded_pops_succeed.2.2.2.1 Nat ⟨[3]⟩ rfl,
    c9_empty_pop_fails_guarded_pops_succeed.2.2.2.2.1 Nat ⟨[3]⟩ rfl,
    c9_empty_pop_fails_guarded_pops_succeed.2.2.2.2.2 Nat ⟨[(0, 0, 3)], 1⟩
      rfl⟩

theorem pushPQList_false_length {α β : Type} (payload : β → α)
    (prio : β → Nat) :
    ∀ (l : List β) (c : Nat),
      (pushPQList (fun _ => False) payload prio c l).length = l.length := by
  intro l
  induction l with
  | nil => intro c; rfl
  | cons t ts ih =>
    intro c
    simp only [pushPQList, if_neg not_false, List.length_cons, ih]

theorem mem_pushPQList_false {α β : Type} (payload : β → α)
    (prio : β → Nat) :
    ∀ (l : List β) (c : Nat) (e : Nat × Nat × α),
      e ∈ pushPQList (fun _ => False) payload prio c l ↔
        ∃ i, ∃ h : i < l.length,
          e = (prio (l.get ⟨i, h⟩), c + i, payload (l.get ⟨i, h⟩)) := by
  intro l
  induction l with
  | nil => intro c e; simp [pushPQList]
  | cons t ts ih =>
    intro c e
    simp only [pushPQList, if_neg not_false, List.mem_cons, ih]
    constructor
    · rintro (he | ⟨i, h, he⟩)
      · exact ⟨0, Nat.succ_pos _, he⟩
      · refine ⟨i + 1, Nat.succ_lt_succ h, ?_⟩
        rw [he, show c + 1 + i = c + (i + 1) from by omega]
        rfl
    · rintro ⟨i, h, he⟩
      cases i with
      | zero => exact Or.inl he
      | succ j =>
        refine Or.inr ⟨j, Nat.lt_of_succ_lt_succ h, ?_⟩
        rw [he, show c + (j + 1) = c + 1 + j from by omega]
        rfl

theorem buildPQ_eq {α : Type} (ops : List (α × Nat)) :
    buildPQ ops =
      ⟨(pushPQList (fun _ => False) Prod.fst Prod.snd 0 ops).reverse,
        ops.length⟩ := by
  have h := pq_fold_eq (fun (_ : α × Nat) => False) Prod.fst Prod.snd ops
    PriorityQueue.empty
  have hshape : buildPQ ops =
      ops.foldl (fun f t =>
        if (fun (_ : α × Nat) => False) t then f
        else f.push (Prod.fst t) (Prod.snd t)) PriorityQueue.empty := rfl
  rw [hshape, h]
  simp [PriorityQueue.empty, pushPQList_false_length]

theorem pairwise_ne_mem_inj {α : Type} {f : α → Nat} :
    ∀ {l : List α}, List.Pairwise (fun a b => f a ≠ f b) l →
      ∀ a ∈ l, ∀ b ∈ l, f a = f b → a = b := by
  intro l hp
  induction hp with
  | nil => intro a ha; simp at ha
  | cons hx hxs ih =>
    intro a ha b hb hfab
    rcases List.mem_cons.mp ha with h1 | h1
    · rcases List.mem_cons.mp hb with h2 | h2
      · rw [h1, h2]
      · subst h1
        exact absurd hfab (hx b h2)
    · rcases List.mem_cons.mp hb with h2 | h2
      · subst h2
        exact absurd hfab.symm (hx a h1)
      · exact ih a h1 b h2 hfab

/-- Claim C10: after any sequence of `push` operations from the empty
priority queue, the heap entries carry pairwise distinct sequence
numbers, all strictly below the current counter; hence no two entries
agree on the `(priority, sequence-number)` prefix, and the
lexicographically least entry — the one the heap delivers — is
unique, so ordering never has to fall through to comparing the stored
payload items. -/
theorem c10_distinct_sequence_numbers {α : Type} (ops : List (α × Nat)) :
    ((buildPQ ops).heap.map (fun e => e.2.1)).Nodup ∧
    (∀ e, e ∈ (buildPQ ops).heap → e.2.1 < (buildPQ ops).count) ∧
    (∀ e e', e ∈ (buildPQ ops).heap → e' ∈ (buildPQ ops).heap →
      e.2.1 = e'.2.1 → e = e') ∧
    ((buildPQ ops).heap ≠ [] →
      ∃ m, (m ∈ (buildPQ ops).heap ∧
          ∀ e ∈ (buildPQ ops).heap, lexLe m e) ∧
        ∀ m', (m' ∈ (buildPQ ops).heap ∧
            ∀ e ∈ (buildPQ ops).heap, lexLe m' e) → m' = m) := by
  have hpw := pushPQList_counts_pairwise (fun (_ : α × Nat) => False)
    Prod.fst Prod.snd ops 0
  have hpwr : List.Pairwise
      (fun (a b : Nat × Nat × α) => a.2.1 ≠ b.2.1)
      ((pushPQList (fun _ => False) Prod.fst Prod.snd 0 ops).reverse) := by
    rw [List.pairwise_reverse]
    exact hpw.imp (fun h => (Nat.ne_of_lt h).symm)
  have hinj := @pairwise_ne_mem_inj (Nat × Nat × α)
    (fun e => e.2.1) _ hpwr
  rw [buildPQ_eq]
  dsimp only
  refine ⟨?_, ?_, ?_, ?_⟩
  · rw [List.map_reverse, List.nodup_reverse]
    exact List.pairwise_map.mpr (hpw.imp (fun h => Nat.ne_of_lt h))
  · intro e he
    have he' := List.mem_reverse.mp he
    have := (mem_pushPQList _ _ _ he').2.2
    omega
  · intro e e' he he' h2
    exact hinj e he e' he' h2
  · intro hne
    obtain ⟨x, xs, hx⟩ := List.exists_cons_of_ne_nil hne
    have hsome : ∃ m rest,
        popMinEntry ((pushPQList (fun (_ : α × Nat) => False)
          Prod.fst Prod.snd 0 ops).reverse) = some (m, rest) := by
      rw [hx]; exact popMinEntry_cons_isSome x xs
    obtain ⟨m, rest, hm⟩ := hsome
    have hperm := popMinEntry_perm hm
    have hmem : m ∈ (pushPQList (fun (_ : α × Nat) => False)
        Prod.fst Prod.snd 0 ops).reverse :=
      hperm.symm.subset (List.mem_cons_self _ _)
    have hmin := popMinEntry_min hm
    refine ⟨m, ⟨hmem, fun e he => hmin e he⟩, ?_⟩
    rintro m' ⟨hm'm, hm'min⟩
    have h1 := hmin m' hm'm
    have h2 := hm'min m hmem
    have hc : m'.2.1 = m.2.1 := by
      simp only [lexLe] at h1 h2
      omega
    exact hinj m' hm'm m hmem hc

theorem c10_witness :
    (((2, 0, 5) : Nat × Nat × Nat).2.1 <
      (buildPQ [((5 : Nat), 2), (7, 1), (9, 1)]).count) ∧
    (∃ m, (m ∈ (buildPQ [((5 : Nat), 2), (7, 1), (9, 1)]).heap ∧
        ∀ e ∈ (buildPQ [((5 : Nat), 2), (7, 1), (9, 1)]).heap, lexLe m e) ∧
      ∀ m', (m' ∈ (buildPQ [((5 : Nat), 2), (7, 1), (9, 1)]).heap ∧
          ∀ e ∈ (buildPQ [((5 : Nat), 2), (7, 1), (9, 1)]).heap,
            lexLe m' e) → m' = m) :=
  ⟨(c10_distinct_sequence_numbers [((5 : Nat), 2), (7, 1), (9, 1)]).2.1
      (2, 0, 5) (by decide),
    (c10_distinct_sequence_numbers [((5 : Nat), 2), (7, 1), (9, 1)]).2.2.2
      (by decide)⟩

/-- Claim C7: popping a non-empty priority queue built by a sequence
of pushes returns the item of a push whose priority is minimal among
all pushes, and whose position in the push sequence is least among
the pushes achieving that minimal priority (FIFO tie-breaking via the
sequence counter). -/
theorem c7_pop_returns_earliest_min {α : Type} (ops : List (α × Nat))
    (hne : ops ≠ []) :
    ∃ i, ∃ hi : i < ops.length, ∃ pq',
      (buildPQ ops).pop = some ((ops.get ⟨i, hi⟩).1, pq') ∧
      (∀ j (hj : j < ops.length),
        (ops.get ⟨i, hi⟩).2 ≤ (ops.get ⟨j, hj⟩).2) ∧
      (∀ j (hj : j < ops.length),
        (ops.get ⟨j, hj⟩).2 = (ops.get ⟨i, hi⟩).2 → i ≤ j) := by
  have hlen : (pushPQList (fun (_ : α × Nat) => False)
      Prod.fst Prod.snd 0 ops).reverse.length = ops.length := by
    rw [List.length_reverse, pushPQList_false_length]
  have hnenil : (pushPQList (fun (_ : α × Nat) => False)
      Prod.fst Prod.snd 0 ops).reverse ≠ [] := by
    intro h
    apply hne
    have := hlen
    rw [h] at this
    exact List.length_eq_zero.mp this.symm
  obtain ⟨x, xs, hx⟩ := List.exists_cons_of_ne_nil hnenil
  have hsome : ∃ m rest,
      popMinEntry ((pushPQList (fun (_ : α × Nat) => False)
        Prod.fst Prod.snd 0 ops).reverse) = some (m, rest) := by
    rw [hx]; exact popMinEntry_cons_isSome x xs
  obtain ⟨m, rest, hm⟩ := hsome
  have hperm := popMinEntry_perm hm
  have hmemr : m ∈ (pushPQList (fun (_ : α × Nat) => False)
      Prod.fst Prod.snd 0 ops).reverse :=
    hperm.symm.subset (List.mem_cons_self _ _)
  have hmem := List.mem_reverse.mp hmemr
  obtain ⟨i, hi, hme⟩ := (mem_pushPQList_false Prod.fst Prod.snd ops 0
    m).mp hmem
  have hmin := popMinEntry_min hm
  refine ⟨i, hi, ⟨rest, ops.length⟩, ?_, ?_, ?_⟩
  · rw [buildPQ_eq]
    simp only [PriorityQueue.pop, hm]
    rw [hme]
  · intro j hj
    have hj' : ((ops.get ⟨j, hj⟩).2, 0 + j, (ops.get ⟨j, hj⟩).1) ∈
        (pushPQList (fun (_ : α × Nat) => False)
          Prod.fst Prod.snd 0 ops).reverse := by
      rw [List.mem_reverse]
      exact (mem_pushPQList_false Prod.fst Prod.snd ops 0 _).mpr
        ⟨j, hj, rfl⟩
    have := hmin _ hj'
    rw [hme] at this
    simp only [lexLe] at this
    omega
  · intro j hj hpj
    have hj' : ((ops.get ⟨j, hj⟩).2, 0 + j, (ops.get ⟨j, hj⟩).1) ∈
        (pushPQList (fun (_ : α × Nat) => False)
          Prod.fst Prod.snd 0 ops).reverse := by
      rw [List.mem_reverse]
      exact (mem_pushPQList_false Prod.fst Prod.snd ops 0 _).mpr
        ⟨j, hj, rfl⟩
    have := hmin _ hj'
    rw [hme] at this
    simp only [lexLe] at this
    omega

theorem c7_witness :
    ∃ i, ∃ hi : i < ([((5 : Nat), 2), (7, 1), (9, 1)] :
        List (Nat × Nat)).length, ∃ pq',
      (buildPQ [((5 : Nat), 2), (7, 1), (9, 1)]).pop =
        some ((([((5 : Nat), 2), (7, 1), (9, 1)] :
          List (Nat × Nat)).get ⟨i, hi⟩).1, pq') ∧
      (∀ j (hj : j < ([((5 : Nat), 2), (7, 1), (9, 1)] :
          List (Nat × Nat)).length),
        (([((5 : Nat), 2), (7, 1), (9, 1)] :
          List (Nat × Nat)).get ⟨i, hi⟩).2 ≤
          (([((5 : Nat), 2), (7, 1), (9, 1)] :
            List (Nat × Nat)).get ⟨j, hj⟩).2) ∧
      (∀ j (hj : j < ([((5 : Nat), 2), (7, 1), (9, 1)] :
          List (Nat × Nat)).length),
        (([((5 : Nat), 2), (7, 1), (9, 1)] :
          List (Nat × Nat)).get ⟨j, hj⟩).2 =
          (([((5 : Nat), 2), (7, 1), (9, 1)] :
            List (Nat × Nat)).get ⟨i, hi⟩).2 → i ≤ j) :=
  c7_pop_returns_earliest_min [((5 : Nat), 2), (7, 1), (9, 1)]
    (by decide)

theorem dfsLoop_sound [DecidableEq S] (p : Problem S A) :
    ∀ (fuel : Nat) (fr : Stack (S × List A)) (vis : List S)
      (path : List A),
      (∀ e ∈ fr.list, ∃ c, Reaches p p.getStartState e.2 e.1 c) →
      dfsLoop p fuel fr vis = some (some path) →
      ∃ t c, Reaches p p.getStartState path t c ∧
        p.isGoalState t = true := by
  intro fuel
  induction fuel with
  | zero =>
    intro fr vis path hent hrun
    simp [dfsLoop] at hrun
  | succ n ih =>
    intro fr vis path hent hrun
    by_cases he : fr.isEmpty
    · simp [dfsLoop, he] at hrun
    · cases hl : fr.list with
      | nil => exact absurd (by simp [Stack.isEmpty, hl]) he
      | cons e₀ rest =>
        obtain ⟨s₀, path₀⟩ := e₀
        have hpop : fr.pop = some ((s₀, path₀), ⟨rest⟩) := by
          simp [Stack.pop, hl]
        have hval₀ : ∃ c, Reaches p p.getStartState path₀ s₀ c :=
          hent (s₀, path₀) (by rw [hl]; exact List.mem_cons_self _ _)
        simp only [dfsLoop, if_neg he, hpop] at hrun
        by_cases hv : s₀ ∈ vis
        · simp only [if_pos hv] at hrun
          refine ih ⟨rest⟩ vis path ?_ hrun
          intro e hee
          exact hent e (by rw [hl]; exact List.mem_cons_of_mem _ hee)
        · simp only [if_neg hv] at hrun
          by_cases hg : p.isGoalState s₀
          · simp only [if_pos hg, Option.some.injEq] at hrun
            subst hrun
            obtain ⟨c, hc⟩ := hval₀
            exact ⟨s₀, c, hc, hg⟩
          · simp only [if_neg hg] at hrun
            refine ih _ (s₀ :: vis) path ?_ hrun
            intro e hee
            rcases (stack_fold_list
                (fun (t : S × A × Nat) => t.1 ∈ s₀ :: vis)
                (fun (t : S × A × Nat) => (t.1, path₀ ++ [t.2.1]))
                (p.getSuccessors s₀) ⟨rest⟩ e).mp hee with
              hee | ⟨t, ht, _, hte⟩
            · exact hent e (by rw [hl]; exact List.mem_cons_of_mem _ hee)
            · subst hte
              obtain ⟨c, hc⟩ := hval₀
              exact ⟨c + t.2.2, Reaches.snoc hc ht⟩

theorem bfsLoop_sound [DecidableEq S] (p : Problem S A) :
    ∀ (fuel : Nat) (fr : Queue (S × List A)) (vis : List S)
      (path : List A),
      (∀ e ∈ fr.queue, ∃ c, Reaches p p.getStartState e.2 e.1 c) →
      bfsLoop p fuel fr vis = some (some path) →
      ∃ t c, Reaches p p.getStartState path t c ∧
        p.isGoalState t = true := by
  intro fuel
  induction fuel with
  | zero =>
    intro fr vis path hent hrun
    simp [bfsLoop] at hrun
  | succ n ih =>
    intro fr vis path hent hrun
    by_cases he : fr.isEmpty
    · simp [bfsLoop, he] at hrun
    · cases hl : fr.queue with
      | nil => exact absurd (by simp [Queue.isEmpty, hl]) he
      | cons e₀ rest =>
        obtain ⟨s₀, path₀⟩ := e₀
        have hpop : fr.pop = some ((s₀, path₀), ⟨rest⟩) := by
          simp [Queue.pop, hl]
        have hval₀ : ∃ c, Reaches p p.getStartState path₀ s₀ c :=
          hent (s₀, path₀) (by rw [hl]; exact List.mem_cons_self _ _)
        simp only [bfsLoop, if_neg he, hpop] at hrun
        by_cases hv : s₀ ∈ vis
        · simp only [if_pos hv] at hrun
          refine ih ⟨rest⟩ vis path ?_ hrun
          intro e hee
          exact hent e (by rw [hl]; exact List.mem_cons_of_mem _ hee)
        · simp only [if_neg hv] at hrun
          by_cases hg : p.isGoalState s₀
          · simp only [if_pos hg, Option.some.injEq] at hrun
            subst hrun
            obtain ⟨c, hc⟩ := hval₀
            exact ⟨s₀, c, hc, hg⟩
          · simp only [if_neg hg] at hrun
            refine ih _ (s₀ :: vis) path ?_ hrun
            intro e hee
            rw [queue_fold_eq] at hee
            rcases List.mem_append.mp hee with hee | hee
            · exact hent e (by rw [hl]; exact List.mem_cons_of_mem _ hee)
            · obtain ⟨t, ht, _, hte⟩ :=
                (mem_pushQList (fun (t : S × A × Nat) => t.1 ∈ s₀ :: vis)
                  (fun (t : S × A × Nat) =>
                    (t.1, path₀ ++ [t.2.1]))).mp hee
              subst hte
              obtain ⟨c, hc⟩ := hval₀
              exact ⟨c + t.2.2, Reaches.snoc hc ht⟩

theorem pq_pop_inv {α : Type} {fr : PriorityQueue α} {item : α}
    {rest' : PriorityQueue α} (hp : fr.pop = some (item, rest')) :
    ∃ m restl, popMinEntry fr.heap = some (m, restl) ∧ m.2.2 = item ∧
      rest' = ⟨restl, fr.count⟩ := by
  cases hpm : popMinEntry fr.heap with
  | none => simp [PriorityQueue.pop, hpm] at hp
  | some mr =>
    obtain ⟨m, restl⟩ := mr
    simp only [PriorityQueue.pop, hpm, Option.some.injEq,
      Prod.mk.injEq] at hp
    exact ⟨m, restl, rfl, hp.1, hp.2.symm⟩

theorem aStarLoop_sound [DecidableEq S] (p : Problem S A)
    (heuristic : S → Nat) :
    ∀ (fuel : Nat) (fr : PriorityQueue (S × List A × Nat))
      (vis : List S) (path : List A),
      (∀ e ∈ fr.heap,
        Reaches p p.getStartState e.2.2.2.1 e.2.2.1 e.2.2.2.2) →
      aStarLoop p heuristic fuel fr vis = some (some path) →
      ∃ t c, Reaches p p.getStartState path t c ∧
        p.isGoalState t = true := by
  intro fuel
  induction fuel with
  | zero =>
    intro fr vis path hent hrun
    simp [aStarLoop] at hrun
  | succ n ih =>
    intro fr vis path hent hrun
    by_cases he : fr.isEmpty
    · simp [aStarLoop, he] at hrun
    · cases hp : fr.pop with
      | none =>
        simp only [aStarLoop, if_neg he, hp] at hrun
        exact absurd hrun (by simp)
      | some x =>
        obtain ⟨⟨s₀, path₀, g₀⟩, rest'⟩ := x
        obtain ⟨m, restl, hpm, hmx, hrest⟩ := pq_pop_inv hp
        have hmmem : m ∈ fr.heap :=
          (popMinEntry_perm hpm).symm.subset (List.mem_cons_self _ _)
        have hval₀ : Reaches p p.getStartState path₀ s₀ g₀ := by
          have := hent m hmmem
          rw [hmx] at this
          exact this
        simp only [aStarLoop, if_neg he, hp] at hrun
        by_cases hv : s₀ ∈ vis
        · simp only [if_pos hv] at hrun
          refine ih rest' vis path ?_ hrun
          intro e hee
          rw [hrest] at hee
          exact hent e
            ((popMinEntry_perm hpm).symm.subset
              (List.mem_cons_of_mem _ hee))
        · simp only [if_neg hv] at hrun
          by_cases hg : p.isGoalState s₀
          · simp only [if_pos hg, Option.some.injEq] at hrun
            subst hrun
            exact ⟨s₀, g₀, hval₀, hg⟩
          · simp only [if_neg hg] at hrun
            refine ih _ (s₀ :: vis) path ?_ hrun
            intro e hee
            rw [pq_fold_eq] at hee
            simp only [List.mem_append, List.mem_reverse] at hee
            rcases hee with hee | hee
            · obtain ⟨⟨t, ht, _, hte₁, hte₂⟩, _, _⟩ :=
                mem_pushPQList _ _ _ hee
              have : Reaches p p.getStartState (path₀ ++ [t.2.1]) t.1
                  (g₀ + t.2.2) := Reaches.snoc hval₀ ht
              rw [hte₂]
              exact this
            · rw [hrest] at hee
              exact hent e
                ((popMinEntry_perm hpm).symm.subset
                  (List.mem_cons_of_mem _ hee))

theorem ucsLoop_sound [DecidableEq S] (p : Problem S A) :
    ∀ (fuel : Nat) (fr : PriorityQueue (S × List A × Nat))
      (vis : List S) (path : List A),
      (∀ e ∈ fr.heap,
        Reaches p p.getStartState e.2.2.2.1 e.2.2.1 e.2.2.2.2) →
      ucsLoop p fuel fr vis = some (some path) →
      ∃ t c, Reaches p p.getStartState path t c ∧
        p.isGoalState t = true := by
  intro fuel fr vis path hent hrun
  rw [← aStarLoop_nullHeuristic] at hrun
  exact aStarLoop_sound p nullHeuristic fuel fr vis path hent hrun

/-- Frontier-coverage invariant of the shared search loop: the start
state is visited or on the frontier, every successor of a visited
state is visited or on the frontier, and no visited state is a goal.
`states` lists the states of the current frontier entries. -/
def CoverInv (p : Problem S A) (states : List S) (visited : List S) :
    Prop :=
  (p.getStartState ∈ visited ∨ p.getStartState ∈ states) ∧
  (∀ v ∈ visited, ∀ t ∈ p.getSuccessors v,
    t.1 ∈ visited ∨ t.1 ∈ states) ∧
  (∀ v ∈ visited, p.isGoalState v = false)

theorem cover_reaches {p : Problem S A} {states visited : List S}
    (hinv : CoverInv p states visited) :
    ∀ {acts : List A} {t : S} {c : Nat},
      Reaches p p.getStartState acts t c →
      t ∈ visited ∨ states ≠ [] := by
  intro acts t c hr
  induction hr with
  | nil =>
    rcases hinv.1 with h | h
    · exact Or.inl h
    · exact Or.inr (List.ne_nil_of_mem h)
  | snoc hr' hedge ih =>
    rcases ih with hu | hne
    · rcases hinv.2.1 _ hu _ hedge with h | h
      · exact Or.inl h
      · exact Or.inr (List.ne_nil_of_mem h)
    · exact Or.inr hne

theorem dfsLoop_none_sound [DecidableEq S] (p : Problem S A) :
    ∀ (fuel : Nat) (fr : Stack (S × List A)) (vis : List S),
      CoverInv p (fr.list.map Prod.fst) vis →
      dfsLoop p fuel fr vis = some none →
      ∀ acts t c, Reaches p p.getStartState acts t c →
        p.isGoalState t = false := by
  intro fuel
  induction fuel with
  | zero =>
    intro fr vis hinv hrun
    simp [dfsLoop] at hrun
  | succ n ih =>
    intro fr vis hinv hrun
    by_cases he : fr.isEmpty
    · intro acts t c hr
      have hl : fr.list = [] := by
        simp only [Stack.isEmpty, beq_iff_eq] at he
        exact List.length_eq_zero.mp he
      have hinv' : CoverInv p [] vis := by
        rw [hl] at hinv
        simpa using hinv
      rcases cover_reaches hinv' hr with hvis | hne
      · exact hinv'.2.2 t hvis
      · exact absurd rfl hne
    · cases hl : fr.list with
      | nil => exact absurd (by simp [Stack.isEmpty, hl]) he
      | cons e₀ rest =>
        obtain ⟨s₀, path₀⟩ := e₀
        have hpop : fr.pop = some ((s₀, path₀), ⟨rest⟩) := by
          simp [Stack.pop, hl]
        have hstates : fr.list.map Prod.fst = s₀ :: rest.map Prod.fst := by
          rw [hl]; rfl
        rw [hstates] at hinv
        simp only [dfsLoop, if_neg he, hpop] at hrun
        by_cases hv : s₀ ∈ vis
        · simp only [if_pos hv] at hrun
          refine ih ⟨rest⟩ vis ⟨?_, ?_, hinv.2.2⟩ hrun
          · rcases hinv.1 with h | h
            · exact Or.inl h
            · rcases List.mem_cons.mp h with h | h
              · exact Or.inl (h ▸ hv)
              · exact Or.inr h
          · intro v hvv t ht
            rcases hinv.2.1 v hvv t ht with h | h
            · exact Or.inl h
            · rcases List.mem_cons.mp h with h | h
              · exact Or.inl (h ▸ hv)
              · exact Or.inr h
        · simp only [if_neg hv] at hrun
          by_cases hg : p.isGoalState s₀
          · simp only [if_pos hg] at hrun
            exact absurd hrun (by simp)
          · simp only [if_neg hg] at hrun
            have holdmem : ∀ e ∈ rest,
                e ∈ ((p.getSuccessors s₀).foldl
                  (fun (f : Stack (S × List A)) (t : S × A × Nat) =>
                    if t.1 ∈ s₀ :: vis then f
                    else f.push (t.1, path₀ ++ [t.2.1])) ⟨rest⟩).list :=
              fun e hee =>
                (stack_fold_list (fun (t : S × A × Nat) => t.1 ∈ s₀ :: vis)
                  (fun (t : S × A × Nat) => (t.1, path₀ ++ [t.2.1]))
                  (p.getSuccessors s₀) ⟨rest⟩ e).mpr (Or.inl hee)
            refine ih _ (s₀ :: vis) ⟨?_, ?_, ?_⟩ hrun
            · rcases hinv.1 with h | h
              · exact Or.inl (List.mem_cons_of_mem _ h)
              · rcases List.mem_cons.mp h with h | h
                · exact Or.inl (h ▸ List.mem_cons_self _ _)
                · obtain ⟨e, hee, hfe⟩ := List.mem_map.mp h
                  exact Or.inr (List.mem_map.mpr ⟨e, holdmem e hee, hfe⟩)
            · intro v hvv t ht
              rcases List.mem_cons.mp hvv with hvv | hvv
              · subst hvv
                by_cases htv : t.1 ∈ v :: vis
                · exact Or.inl htv
                · refine Or.inr (List.mem_map.mpr
                    ⟨(t.1, path₀ ++ [t.2.1]), ?_, rfl⟩)
                  exact (stack_fold_list
                    (fun (t : S × A × Nat) => t.1 ∈ v :: vis)
                    (fun (t : S × A × Nat) => (t.1, path₀ ++ [t.2.1]))
                    (p.getSuccessors v) ⟨rest⟩ _).mpr
                    (Or.inr ⟨t, ht, htv, rfl⟩)
              · rcases hinv.2.1 v hvv t ht with h | h
                · exact Or.inl (List.mem_cons_of_mem _ h)
                · rcases List.mem_cons.mp h with h | h
                  · exact Or.inl (h ▸ List.mem_cons_self _ _)
                  · obtain ⟨e, hee, hfe⟩ := List.mem_map.mp h
                    exact Or.inr
                      (List.mem_map.mpr ⟨e, holdmem e hee, hfe⟩)
            · intro v hvv
              rcases List.mem_cons.mp hvv with hvv | hvv
              · subst hvv
                exact Bool.eq_false_iff.mpr hg
              · exact hinv.2.2 v hvv

theorem bfsLoop_none_sound [DecidableEq S] (p : Problem S A) :
    ∀ (fuel : Nat) (fr : Queue (S × List A)) (vis : List S),
      CoverInv p (fr.queue.map Prod.fst) vis →
      bfsLoop p fuel fr vis = some none →
      ∀ acts t c, Reaches p p.getStartState acts t c →
        p.isGoalState t = false := by
  intro fuel
  induction fuel with
  | zero =>
    intro fr vis hinv hrun
    simp [bfsLoop] at hrun
  | succ n ih =>
    intro fr vis hinv hrun
    by_cases he : fr.isEmpty
    · intro acts t c hr
      have hl : fr.queue = [] := by
        simp only [Queue.isEmpty, beq_iff_eq] at he
        exact List.length_eq_zero.mp he
      have hinv' : CoverInv p [] vis := by
        rw [hl] at hinv
        simpa using hinv
      rcases cover_reaches hinv' hr with hvis | hne
      · exact hinv'.2.2 t hvis
      · exact absurd rfl hne
    · cases hl : fr.queue with
      | nil => exact absurd (by simp [Queue.isEmpty, hl]) he
      | cons e₀ rest =>
        obtain ⟨s₀, path₀⟩ := e₀
        have hpop : fr.pop = some ((s₀, path₀), ⟨rest⟩) := by
          simp [Queue.pop, hl]
        have hstates : fr.queue.map Prod.fst = s₀ :: rest.map Prod.fst := by
          rw [hl]; rfl
        rw [hstates] at hinv
        simp only [bfsLoop, if_neg he, hpop] at hrun
        by_cases hv : s₀ ∈ vis
        · simp only [if_pos hv] at hrun
          refine ih ⟨rest⟩ vis ⟨?_, ?_, hinv.2.2⟩ hrun
          · rcases hinv.1 with h | h
            · exact Or.inl h
            · rcases List.mem_cons.mp h with h | h
              · exact Or.inl (h ▸ hv)
              · exact Or.inr h
          · intro v hvv t ht
            rcases hinv.2.1 v hvv t ht with h | h
            · exact Or.inl h
            · rcases List.mem_cons.mp h with h | h
              · exact Or.inl (h ▸ hv)
              · exact Or.inr h
        · simp only [if_neg hv] at hrun
          by_cases hg : p.isGoalState s₀
          · simp only [if_pos hg] at hrun
            exact absurd hrun (by simp)
          · simp only [if_neg hg] at hrun
            have holdmem : ∀ e ∈ rest,
                e ∈ ((p.getSuccessors s₀).foldl
                  (fun (f : Queue (S × List A)) (t : S × A × Nat) =>
                    if t.1 ∈ s₀ :: vis then f
                    else f.push (t.1, path₀ ++ [t.2.1])) ⟨rest⟩).queue := by
              intro e hee
              rw [queue_fold_eq]
              exact List.mem_append.mpr (Or.inl hee)
            refine ih _ (s₀ :: vis) ⟨?_, ?_, ?_⟩ hrun
            · rcases hinv.1 with h | h
              · exact Or.inl (List.mem_cons_of_mem _ h)
              · rcases List.mem_cons.mp h with h | h
                · exact Or.inl (h ▸ List.mem_cons_self _ _)
                · obtain ⟨e, hee, hfe⟩ := List.mem_map.mp h
                  exact Or.inr (List.mem_map.mpr ⟨e, holdmem e hee, hfe⟩)
            · intro v hvv t ht
              rcases List.mem_cons.mp hvv with hvv | hvv
              · subst hvv
                by_cases htv : t.1 ∈ v :: vis
                · exact Or.inl htv
                · refine Or.inr (List.mem_map.mpr
                    ⟨(t.1, path₀ ++ [t.2.1]), ?_, rfl⟩)
                  rw [queue_fold_eq]
                  refine List.mem_append.mpr (Or.inr ?_)
                  exact (mem_pushQList
                    (fun (t : S × A × Nat) => t.1 ∈ v :: vis)
                    (fun (t : S × A × Nat) =>
                      (t.1, path₀ ++ [t.2.1]))).mpr ⟨t, ht, htv, rfl⟩
              · rcases hinv.2.1 v hvv t ht with h | h
                · exact Or.inl (List.mem_cons_of_mem _ h)
                · rcases List.mem_cons.mp h with h | h
                  · exact Or.inl (h ▸ List.mem_cons_self _ _)
                  · obtain ⟨e, hee, hfe⟩ := List.mem_map.mp h
                    exact Or.inr
                      (List.mem_map.mpr ⟨e, holdmem e hee, hfe⟩)
            · intro v hvv
              rcases List.mem_cons.mp hvv with hvv | hvv
              · subst hvv
                exact Bool.eq_false_iff.mpr hg
              · exact hinv.2.2 v hvv

theorem aStarLoop_none_sound [DecidableEq S] (p : Problem S A)
    (heuristic : S → Nat) :
    ∀ (fuel : Nat) (fr : PriorityQueue (S × List A × Nat))
      (vis : List S),
      CoverInv p (fr.heap.map (fun e => e.2.2.1)) vis →
      aStarLoop p heuristic fuel fr vis = some none →
      ∀ acts t c, Reaches p p.getStartState acts t c →
        p.isGoalState t = false := by
  intro fuel
  induction fuel with
  | zero =>
    intro fr vis hinv hrun
    simp [aStarLoop] at hrun
  | succ n ih =>
    intro fr vis hinv hrun
    by_cases he : fr.isEmpty
    · intro acts t c hr
      have hl : fr.heap = [] := by
        simp only [PriorityQueue.isEmpty, beq_iff_eq] at he
        exact List.length_eq_zero.mp he
      have hinv' : CoverInv p [] vis := by
        rw [hl] at hinv
        simpa using hinv
      rcases cover_reaches hinv' hr with hvis | hne
      · exact hinv'.2.2 t hvis
      · exact absurd rfl hne
    · cases hp : fr.pop with
      | none =>
        obtain ⟨l, c⟩ := fr
        cases l with
        | nil => exact absurd (by simp [PriorityQueue.isEmpty]) he
        | cons x xs =>
          obtain ⟨e, rest, hre⟩ := popMinEntry_cons_isSome x xs
          simp [PriorityQueue.pop, hre] at hp
      | some x =>
        obtain ⟨⟨s₀, path₀, g₀⟩, rest'⟩ := x
        obtain ⟨m, restl, hpm, hmx, hrest⟩ := pq_pop_inv hp
        have hperm := popMinEntry_perm hpm
        have hmem_of : ∀ e, e ∈ fr.heap → e = m ∨ e ∈ restl := by
          intro e hee
          exact List.mem_cons.mp (hperm.subset hee)
        have hmem_to : ∀ e, e ∈ restl → e ∈ fr.heap :=
          fun e hee => hperm.symm.subset (List.mem_cons_of_mem _ hee)
        have hms : m.2.2.1 = s₀ := by rw [hmx]
        simp only [aStarLoop, if_neg he, hp] at hrun
        by_cases hv : s₀ ∈ vis
        · simp only [if_pos hv] at hrun
          refine ih rest' vis ⟨?_, ?_, hinv.2.2⟩ hrun
          · rcases hinv.1 with h | h
            · exact Or.inl h
            · obtain ⟨e, hee, hfe⟩ := List.mem_map.mp h
              rcases hmem_of e hee with rfl | hee'
              · exact Or.inl (by rw [← hfe, hms]; exact hv)
              · refine Or.inr (List.mem_map.mpr ⟨e, ?_, hfe⟩)
                rw [hrest]
                exact hee'
          · intro v hvv t ht
            rcases hinv.2.1 v hvv t ht with h | h
            · exact Or.inl h
            · obtain ⟨e, hee, hfe⟩ := List.mem_map.mp h
              rcases hmem_of e hee with rfl | hee'
              · exact Or.inl (by rw [← hfe, hms]; exact hv)
              · refine Or.inr (List.mem_map.mpr ⟨e, ?_, hfe⟩)
                rw [hrest]
                exact hee'
        · simp only [if_neg hv] at hrun
          by_cases hg : p.isGoalState s₀
          · simp only [if_pos hg] at hrun
            exact absurd hrun (by simp)
          · simp only [if_neg hg] at hrun
            have holdmem : ∀ e ∈ restl,
                e ∈ ((p.getSuccessors s₀).foldl
                  (fun (f : PriorityQueue (S × List A × Nat))
                      (t : S × A × Nat) =>
                    if t.1 ∈ s₀ :: vis then f
                    else f.push (t.1, path₀ ++ [t.2.1], g₀ + t.2.2)
                      ((g₀ + t.2.2) + heuristic t.1)) rest').heap := by
              intro e hee
              rw [pq_fold_eq]
              refine List.mem_append.mpr (Or.inr ?_)
              rw [hrest]
              exact hee
            refine ih _ (s₀ :: vis) ⟨?_, ?_, ?_⟩ hrun
            · rcases hinv.1 with h | h
              · exact Or.inl (List.mem_cons_of_mem _ h)
              · obtain ⟨e, hee, hfe⟩ := List.mem_map.mp h
                rcases hmem_of e hee with rfl | hee'
                · refine Or.inl ?_
                  rw [← hfe, hms]
                  exact List.mem_cons_self _ _
                · exact Or.inr (List.mem_map.mpr ⟨e, holdmem e hee', hfe⟩)
            · intro v hvv t ht
              rcases List.mem_cons.mp hvv with hvv | hvv
              · subst hvv
                by_cases htv : t.1 ∈ v :: vis
                · exact Or.inl htv
                · obtain ⟨cnt, hcnt⟩ := pushPQList_mem_of
                    (fun (t : S × A × Nat) => t.1 ∈ v :: vis)
                    (fun (t : S × A × Nat) =>
                      (t.1, path₀ ++ [t.2.1], g₀ + t.2.2))
                    (fun (t : S × A × Nat) =>
                      (g₀ + t.2.2) + heuristic t.1) ht htv rest'.count
                  refine Or.inr (List.mem_map.mpr
                    ⟨((g₀ + t.2.2) + heuristic t.1, cnt,
                      (t.1, path₀ ++ [t.2.1], g₀ + t.2.2)), ?_, rfl⟩)
                  rw [pq_fold_eq]
                  refine List.mem_append.mpr (Or.inl ?_)
                  rw [List.mem_reverse]
                  exact hcnt
              · rcases hinv.2.1 v hvv t ht with h | h
                · exact Or.inl (List.mem_cons_of_mem _ h)
                · obtain ⟨e, hee, hfe⟩ := List.mem_map.mp h
                  rcases hmem_of e hee with rfl | hee'
                  · refine Or.inl ?_
                    rw [← hfe, hms]
                    exact List.mem_cons_self _ _
                  · exact Or.inr
                      (List.mem_map.mpr ⟨e, holdmem e hee', hfe⟩)
            · intro v hvv
              rcases List.mem_cons.mp hvv with hvv | hvv
              · subst hvv
                exact Bool.eq_false_iff.mpr hg
              · exact hinv.2.2 v hvv

theorem ucsLoop_none_sound [DecidableEq S] (p : Problem S A) :
    ∀ (fuel : Nat) (fr : PriorityQueue (S × List A × Nat))
      (vis : List S),
      CoverInv p (fr.heap.map (fun e => e.2.2.1)) vis →
      ucsLoop p fuel fr vis = some none →
      ∀ acts t c, Reaches p p.getStartState acts t c →
        p.isGoalState t = false := by
  intro fuel fr vis hinv hrun
  rw [← aStarLoop_nullHeuristic] at hrun
  exact aStarLoop_none_sound p nullHeuristic fuel fr vis hinv hrun

/-- Claim C2: whenever one of the four search functions returns a
path, replaying that path's actions from `getStartState` through
`getSuccessors` is well-defined — each action is among the successor
triples of the state it is taken from — and the replay ends in a
state satisfying `isGoalState`. -/
theorem c2_path_validity [DecidableEq S] (p : Problem S A)
    (fuel : Nat) :
    (∀ path, depthFirstSearch p fuel = some (some path) →
      ∃ t c, Reaches p p.getStartState path t c ∧
        p.isGoalState t = true) ∧
    (∀ path, breadthFirstSearch p fuel = some (some path) →
      ∃ t c, Reaches p p.getStartState path t c ∧
        p.isGoalState t = true) ∧
    (∀ path, uniformCostSearch p fuel = some (some path) →
      ∃ t c, Reaches p p.getStartState path t c ∧
        p.isGoalState t = true) ∧
    (∀ heuristic path, aStarSearch p heuristic fuel = some (some path) →
      ∃ t c, Reaches p p.getStartState path t c ∧
        p.isGoalState t = true) := by
  refine ⟨?_, ?_, ?_, ?_⟩
  · intro path hrun
    refine dfsLoop_sound p fuel _ [] path ?_ hrun
    intro e hee
    simp only [Stack.push, List.mem_singleton] at hee
    subst hee
    exact ⟨0, Reaches.nil _⟩
  · intro path hrun
    refine bfsLoop_sound p fuel _ [] path ?_ hrun
    intro e hee
    simp only [Queue.push, List.nil_append, List.mem_singleton] at hee
    subst hee
    exact ⟨0, Reaches.nil _⟩
  · intro path hrun
    refine ucsLoop_sound p fuel _ [] path ?_ hrun
    intro e hee
    simp only [PriorityQueue.push, PriorityQueue.empty,
      List.mem_singleton] at hee
    subst hee
    exact Reaches.nil _
  · intro heuristic path hrun
    refine aStarLoop_sound p heuristic fuel _ [] path ?_ hrun
    intro e hee
    simp only [PriorityQueue.push, PriorityQueue.empty,
      List.mem_singleton] at hee
    subst hee
    exact Reaches.nil _

theorem c2_witness :
    (∃ t c, Reaches egProblem egProblem.getStartState [1] t c ∧
      egProblem.isGoalState t = true) ∧
    (∃ t c, Reaches egProblem egProblem.getStartState [1] t c ∧
      egProblem.isGoalState t = true) ∧
    (∃ t c, Reaches egProblem egProblem.getStartState [0, 0] t c ∧
      egProblem.isGoalState t = true) ∧
    (∃ t c, Reaches egProblem egProblem.getStartState [0, 0] t c ∧
      egProblem.isGoalState t = true) :=
  ⟨(c2_path_validity egProblem 10).1 [1] rfl,
    (c2_path_validity egProblem 10).2.1 [1] rfl,
    (c2_path_validity egProblem 10).2.2.1 [0, 0] rfl,
    (c2_path_validity egProblem 10).2.2.2 nullHeuristic [0, 0] rfl⟩

/-- Claim C4: for each search function, a returned result is the
sentinel `none` exactly when no goal state is reachable from the
start state; and when the start state is itself a goal, one unit of
fuel already returns the empty action sequence `some []`, which is
distinct from the sentinel. -/
theorem c4_sentinel_iff_unreachable [DecidableEq S] (p : Problem S A) :
    (∀ fuel r, depthFirstSearch p fuel = some r →
      (r = none ↔ ¬∃ acts t c, Reaches p p.getStartState acts t c ∧
        p.isGoalState t = true)) ∧
    (∀ fuel r, breadthFirstSearch p fuel = some r →
      (r = none ↔ ¬∃ acts t c, Reaches p p.getStartState acts t c ∧
        p.isGoalState t = true)) ∧
    (∀ fuel r, uniformCostSearch p fuel = some r →
      (r = none ↔ ¬∃ acts t c, Reaches p p.getStartState acts t c ∧
        p.isGoalState t = true)) ∧
    (∀ heuristic fuel r, aStarSearch p heuristic fuel = some r →
      (r = none ↔ ¬∃ acts t c, Reaches p p.getStartState acts t c ∧
        p.isGoalState t = true)) ∧
    (p.isGoalState p.getStartState = true → ∀ fuel, 1 ≤ fuel →
      depthFirstSearch p fuel = some (some []) ∧
      breadthFirstSearch p fuel = some (some []) ∧
      uniformCostSearch p fuel = some (some []) ∧
      ∀ heuristic, aStarSearch p heuristic fuel = some (some [])) := by
  have hseedS : CoverInv p
      ((Stack.push ⟨[]⟩ (p.getStartState, ([] : List A))).list.map
        Prod.fst) [] := by
    refine ⟨Or.inr ?_, ?_, ?_⟩
    · simp [Stack.push]
    · intro v hv; simp at hv
    · intro v hv; simp at hv
  have hseedQ : CoverInv p
      ((Queue.push ⟨[]⟩ (p.getStartState, ([] : List A))).queue.map
        Prod.fst) [] := by
    refine ⟨Or.inr ?_, ?_, ?_⟩
    · simp [Queue.push]
    · intro v hv; simp at hv
    · intro v hv; simp at hv
  have hseedP : ∀ pr : Nat, CoverInv p
      ((PriorityQueue.empty.push (p.getStartState, ([] : List A), 0)
        pr).heap.map (fun e => e.2.2.1)) [] := by
    intro pr
    refine ⟨Or.inr ?_, ?_, ?_⟩
    · simp [PriorityQueue.push, PriorityQueue.empty]
    · intro v hv; simp at hv
    · intro v hv; simp at hv
  refine ⟨?_, ?_, ?_, ?_, ?_⟩
  · intro fuel r hrun
    constructor
    · intro hnone
      subst hnone
      rintro ⟨acts, t, c, hr, hg⟩
      have := dfsLoop_none_sound p fuel _ [] hseedS hrun acts t c hr
      rw [hg] at this
      exact absurd this (by decide)
    · intro hne
      cases r with
      | none => rfl
      | some path =>
        obtain ⟨t, c, hr, hg⟩ := dfsLoop_sound p fuel _ [] path
          (by
            intro e hee
            simp only [Stack.push, List.mem_singleton] at hee
            subst hee
            exact ⟨0, Reaches.nil _⟩) hrun
        exact absurd ⟨path, t, c, hr, hg⟩ hne
  · intro fuel r hrun
    constructor
    · intro hnone
      subst hnone
      rintro ⟨acts, t, c, hr, hg⟩
      have := bfsLoop_none_sound p fuel _ [] hseedQ hrun acts t c hr
      rw [hg] at this
      exact absurd this (by decide)
    · intro hne
      cases r with
      | none => rfl
      | some path =>
        obtain ⟨t, c, hr, hg⟩ := bfsLoop_sound p fuel _ [] path
          (by
            intro e hee
            simp only [Queue.push, List.nil_append,
              List.mem_singleton] at hee
            subst hee
            exact ⟨0, Reaches.nil _⟩) hrun
        exact absurd ⟨path, t, c, hr, hg⟩ hne
  · intro fuel r hrun
    constructor
    · intro hnone
      subst hnone
      rintro ⟨acts, t, c, hr, hg⟩
      have := ucsLoop_none_sound p fuel _ [] (hseedP 0) hrun acts t c hr
      rw [hg] at this
      exact absurd this (by decide)
    · intro hne
      cases r with
      | none => rfl
      | some path =>
        obtain ⟨t, c, hr, hg⟩ := ucsLoop_sound p fuel _ [] path
          (by
            intro e hee
            simp only [PriorityQueue.push, PriorityQueue.empty,
              List.mem_singleton] at hee
            subst hee
            exact Reaches.nil _) hrun
        exact absurd ⟨path, t, c, hr, hg⟩ hne
  · intro heuristic fuel r hrun
    constructor
    · intro hnone
      subst hnone
      rintro ⟨acts, t, c, hr, hg⟩
      have := aStarLoop_none_sound p heuristic fuel _ []
        (hseedP (0 + heuristic p.getStartState)) hrun acts t c hr
      rw [hg] at this
      exact absurd this (by decide)
    · intro hne
      cases r with
      | none => rfl
      | some path =>
        obtain ⟨t, c, hr, hg⟩ := aStarLoop_sound p heuristic fuel _ []
          path
          (by
            intro e hee
            simp only [PriorityQueue.push, PriorityQueue.empty,
              List.mem_singleton] at hee
            subst hee
            exact Reaches.nil _) hrun
        exact absurd ⟨path, t, c, hr, hg⟩ hne
  · intro hg fuel hfuel
    cases fuel with
    | zero => exact absurd hfuel (by decide)
    | succ n =>
      refine ⟨?_, ?_, ?_, ?_⟩
      · simp [depthFirstSearch, dfsLoop, Stack.isEmpty, Stack.push,
          Stack.pop, hg]
      · simp [breadthFirstSearch, bfsLoop, Queue.isEmpty, Queue.push,
          Queue.pop, hg]
      · simp [uniformCostSearch, ucsLoop, PriorityQueue.isEmpty,
          PriorityQueue.push, PriorityQueue.empty, PriorityQueue.pop,
          popMinEntry, hg]
      · intro heuristic
        simp [aStarSearch, aStarLoop, PriorityQueue.isEmpty,
          PriorityQueue.push, PriorityQueue.empty, PriorityQueue.pop,
          popMinEntry, hg]

theorem c4_witness :
    (¬∃ acts t c, Reaches egBlocked egBlocked.getStartState acts t c ∧
      egBlocked.isGoalState t = true) ∧
    (depthFirstSearch egSelf 1 = some (some []) ∧
      breadthFirstSearch egSelf 1 = some (some []) ∧
      uniformCostSearch egSelf 1 = some (some []) ∧
      ∀ heuristic, aStarSearch egSelf heuristic 1 = some (some [])) :=
  ⟨((c4_sentinel_iff_unreachable egBlocked).1 10 none rfl).mp rfl,
    (c4_sentinel_iff_unreachable egSelf).2.2.2.2 rfl 1 (by decide)⟩

/-- One iteration of the `depthFirstSearch` loop body, labelled with
the state it freshly expands (`none` for a stale pop that is
discarded because the state is already visited). -/
inductive DfsStep [DecidableEq S] (p : Problem S A) :
    Stack (S × List A) × List S → Option S →
      Stack (S × List A) × List S → Prop
  | stale {s : S} {path : List A} {rest : List (S × List A)}
      {vis : List S} :
      s ∈ vis → DfsStep p (⟨(s, path) :: rest⟩, vis) none (⟨rest⟩, vis)
  | expand {s : S} {path : List A} {rest : List (S × List A)}
      {vis : List S} :
      s ∉ vis → p.isGoalState s = false →
      DfsStep p (⟨(s, path) :: rest⟩, vis) (some s)
        ((p.getSuccessors s).foldl
          (fun f t => if t.1 ∈ s :: vis then f
            else f.push (t.1, path ++ [t.2.1])) ⟨rest⟩, s :: vis)

/-- One iteration of the `breadthFirstSearch` loop body, labelled
with the state it freshly expands. -/
inductive BfsStep [DecidableEq S] (p : Problem S A) :
    Queue (S × List A) × List S → Option S →
      Queue (S × List A) × List S → Prop
  | stale {s : S} {path : List A} {rest : List (S × List A)}
      {vis : List S} :
      s ∈ vis → BfsStep p (⟨(s, path) :: rest⟩, vis) none (⟨rest⟩, vis)
  | expand {s : S} {path : List A} {rest : List (S × List A)}
      {vis : List S} :
      s ∉ vis → p.isGoalState s = false →
      BfsStep p (⟨(s, path) :: rest⟩, vis) (some s)
        ((p.getSuccessors s).foldl
          (fun f t => if t.1 ∈ s :: vis then f
            else f.push (t.1, path ++ [t.2.1])) ⟨rest⟩, s :: vis)

/-- One iteration of the `uniformCostSearch` loop body, labelled with
the state it freshly expands. -/
inductive UcsStep [DecidableEq S] (p : Problem S A) :
    PriorityQueue (S × List A × Nat) × List S → Option S →
      PriorityQueue (S × List A × Nat) × List S → Prop
  | stale {fr : PriorityQueue (S × List A × Nat)}
      {m : Nat × Nat × S × List A × Nat}
      {restl : List (Nat × Nat × S × List A × Nat)}
      {s : S} {path : List A} {g : Nat} {vis : List S} :
      popMinEntry fr.heap = some (m, restl) → m.2.2 = (s, path, g) →
      s ∈ vis → UcsStep p (fr, vis) none (⟨restl, fr.count⟩, vis)
  | expand {fr : PriorityQueue (S × List A × Nat)}
      {m : Nat × Nat × S × List A × Nat}
      {restl : List (Nat × Nat × S × List A × Nat)}
      {s : S} {path : List A} {g : Nat} {vis : List S} :
      popMinEntry fr.heap = some (m, restl) → m.2.2 = (s, path, g) →
      s ∉ vis → p.isGoalState s = false →
      UcsStep p (fr, vis) (some s)
        ((p.getSuccessors s).foldl
          (fun f t => if t.1 ∈ s :: vis then f
            else f.push (t.1, path ++ [t.2.1], g + t.2.2) (g + t.2.2))
          ⟨restl, fr.count⟩, s :: vis)

/-- One iteration of the `aStarSearch` loop body, labelled with the
state it freshly expands. -/
inductive AStarStep [DecidableEq S] (p : Problem S A)
    (heuristic : S → Nat) :
    PriorityQueue (S × List A × Nat) × List S → Option S →
      PriorityQueue (S × List A × Nat) × List S → Prop
  | stale {fr : PriorityQueue (S × List A × Nat)}
      {m : Nat × Nat × S × List A × Nat}
      {restl : List (Nat × Nat × S × List A × Nat)}
      {s : S} {path : List A} {g : Nat} {vis : List S} :
      popMinEntry fr.heap = some (m, restl) → m.2.2 = (s, path, g) →
      s ∈ vis →
      AStarStep p heuristic (fr, vis) none (⟨restl, fr.count⟩, vis)
  | expand {fr : PriorityQueue (S × List A × Nat)}
      {m : Nat × Nat × S × List A × Nat}
      {restl : List (Nat × Nat × S × List A × Nat)}
      {s : S} {path : List A} {g : Nat} {vis : List S} :
      popMinEntry fr.heap = some (m, restl) → m.2.2 = (s, path, g) →
      s ∉ vis → p.isGoalState s = false →
      AStarStep p heuristic (fr, vis) (some s)
        ((p.getSuccessors s).foldl
          (fun f t => if t.1 ∈ s :: vis then f
            else f.push (t.1, path ++ [t.2.1], g + t.2.2)
              ((g + t.2.2) + heuristic t.1))
          ⟨restl, fr.count⟩, s :: vis)

theorem pq_isEmpty_false_of_popMin {α : Type} {fr : PriorityQueue α}
    {x : (Nat × Nat × α) × List (Nat × Nat × α)}
    (h : popMinEntry fr.heap = some x) : fr.isEmpty = false := by
  cases hl : fr.heap with
  | nil =>
    rw [hl] at h
    simp [popMinEntry] at h
  | cons a as => simp [PriorityQueue.isEmpty, hl]

theorem visited_chain_mono {σ : Type}
    {StepR : σ → Option S → σ → Prop} {V : σ → List S}
    (hgrow : ∀ c l c', StepR c l c' → ∀ x ∈ V c, x ∈ V c')
    {c₂ c₃ : σ}
    (hchain : Relation.ReflTransGen
      (fun a b => ∃ l, StepR a l b) c₂ c₃) :
    ∀ x ∈ V c₂, x ∈ V c₃ := by
  induction hchain with
  | refl => exact fun x hx => hx
  | tail hab hbc ih =>
    obtain ⟨l, hstep⟩ := hbc
    exact fun x hx => hgrow _ _ _ hstep x (ih x hx)

theorem step_no_reexpand {σ : Type}
    {StepR : σ → Option S → σ → Prop} {V : σ → List S}
    (hgrow : ∀ c l c', StepR c l c' → ∀ x ∈ V c, x ∈ V c')
    (hmark : ∀ c s c', StepR c (some s) c' → s ∉ V c ∧ s ∈ V c')
    {c₁ : σ} {s : S} {c₂ c₃ : σ} {s' : S} {c₄ : σ}
    (h₁ : StepR c₁ (some s) c₂)
    (hchain : Relation.ReflTransGen
      (fun a b => ∃ l, StepR a l b) c₂ c₃)
    (h₂ : StepR c₃ (some s') c₄) : s' ≠ s := by
  intro heq
  subst heq
  exact (hmark _ _ _ h₂).1
    (visited_chain_mono hgrow hchain s' (hmark _ _ _ h₁).2)

theorem dfs_step_grow [DecidableEq S] (p : Problem S A) :
    ∀ c l c', DfsStep p c l c' → ∀ x ∈ c.2, x ∈ c'.2 := by
  intro c l c' h
  cases h with
  | stale hs => exact fun x hx => hx
  | expand hs hg => exact fun x hx => List.mem_cons_of_mem _ hx

theorem dfs_step_mark [DecidableEq S] (p : Problem S A) :
    ∀ c s c', DfsStep p c (some s) c' → s ∉ c.2 ∧ s ∈ c'.2 := by
  intro c s c' h
  cases h with
  | expand hs hg => exact ⟨hs, List.mem_cons_self _ _⟩

theorem bfs_step_grow [DecidableEq S] (p : Problem S A) :
    ∀ c l c', BfsStep p c l c' → ∀ x ∈ c.2, x ∈ c'.2 := by
  intro c l c' h
  cases h with
  | stale hs => exact fun x hx => hx
  | expand hs hg => exact fun x hx => List.mem_cons_of_mem _ hx

theorem bfs_step_mark [DecidableEq S] (p : Problem S A) :
    ∀ c s c', BfsStep p c (some s) c' → s ∉ c.2 ∧ s ∈ c'.2 := by
  intro c s c' h
  cases h with
  | expand hs hg => exact ⟨hs, List.mem_cons_self _ _⟩

theorem ucs_step_grow [DecidableEq S] (p : Problem S A) :
    ∀ c l c', UcsStep p c l c' → ∀ x ∈ c.2, x ∈ c'.2 := by
  intro c l c' h
  cases h with
  | stale hpm hm hs => exact fun x hx => hx
  | expand hpm hm hs hg => exact fun x hx => List.mem_cons_of_mem _ hx

theorem ucs_step_mark [DecidableEq S] (p : Problem S A) :
    ∀ c s c', UcsStep p c (some s) c' → s ∉ c.2 ∧ s ∈ c'.2 := by
  intro c s c' h
  cases h with
  | expand hpm hm hs hg => exact ⟨hs, List.mem_cons_self _ _⟩

theorem astar_step_grow [DecidableEq S] (p : Problem S A)
    (heuristic : S → Nat) :
    ∀ c l c', AStarStep p heuristic c l c' → ∀ x ∈ c.2, x ∈ c'.2 := by
  intro c l c' h
  cases h with
  | stale hpm hm hs => exact fun x hx => hx
  | expand hpm hm hs hg => exact fun x hx => List.mem_cons_of_mem _ hx

theorem astar_step_mark [DecidableEq S] (p : Problem S A)
    (heuristic : S → Nat) :
    ∀ c s c', AStarStep p heuristic c (some s) c' →
      s ∉ c.2 ∧ s ∈ c'.2 := by
  intro c s c' h
  cases h with
  | expand hpm hm hs hg => exact ⟨hs, List.mem_cons_self _ _⟩

theorem dfs_step_corr [DecidableEq S] (p : Problem S A) :
    ∀ c l c', DfsStep p c l c' → ∀ fuel,
      dfsLoop p (fuel + 1) c.1 c.2 = dfsLoop p fuel c'.1 c'.2 := by
  intro c l c' h fuel
  cases h with
  | stale hs => simp [dfsLoop, Stack.isEmpty, Stack.pop, hs]
  | expand hs hg => simp [dfsLoop, Stack.isEmpty, Stack.pop, hs, hg]

theorem bfs_step_corr [DecidableEq S] (p : Problem S A) :
    ∀ c l c', BfsStep p c l c' → ∀ fuel,
      bfsLoop p (fuel + 1) c.1 c.2 = bfsLoop p fuel c'.1 c'.2 := by
  intro c l c' h fuel
  cases h with
  | stale hs => simp [bfsLoop, Queue.isEmpty, Queue.pop, hs]
  | expand hs hg => simp [bfsLoop, Queue.isEmpty, Queue.pop, hs, hg]

theorem ucs_step_corr [DecidableEq S] (p : Problem S A) :
    ∀ c l c', UcsStep p c l c' → ∀ fuel,
      ucsLoop p (fuel + 1) c.1 c.2 = ucsLoop p fuel c'.1 c'.2 := by
  intro c l c' h fuel
  cases h with
  | stale hpm hm hs =>
    have hne := pq_isEmpty_false_of_popMin hpm
    simp [ucsLoop, hne, PriorityQueue.pop, hpm, hm, hs]
  | expand hpm hm hs hg =>
    have hne := pq_isEmpty_false_of_popMin hpm
    simp [ucsLoop, hne, PriorityQueue.pop, hpm, hm, hs, hg]

theorem astar_step_corr [DecidableEq S] (p : Problem S A)
    (heuristic : S → Nat) :
    ∀ c l c', AStarStep p heuristic c l c' → ∀ fuel,
      aStarLoop p heuristic (fuel + 1) c.1 c.2 =
        aStarLoop p heuristic fuel c'.1 c'.2 := by
  intro c l c' h fuel
  cases h with
  | stale hpm hm hs =>
    have hne := pq_isEmpty_false_of_popMin hpm
    simp [aStarLoop, hne, PriorityQueue.pop, hpm, hm, hs]
  | expand hpm hm hs hg =>
    have hne := pq_isEmpty_false_of_popMin hpm
    simp [aStarLoop, hne, PriorityQueue.pop, hpm, hm, hs, hg]

/-- Claim C8: during a single run of any of the four search loops the
visited set only grows; an iteration expands (generates successors
for) a state only when that state is not yet visited, and records it
as visited; each loop iteration is faithfully one unfolding of the
corresponding loop function; and along any run, two fresh expansions
are always of distinct states — a state in the visited set is never
re-expanded. -/
theorem c8_visited_monotone_never_reexpanded [DecidableEq S]
    (p : Problem S A) (heuristic : S → Nat) :
    (∀ c l c', DfsStep p c l c' →
      (∀ x ∈ c.2, x ∈ c'.2) ∧
      (∀ s, l = some s → s ∉ c.2 ∧ s ∈ c'.2) ∧
      (∀ fuel, dfsLoop p (fuel + 1) c.1 c.2 =
        dfsLoop p fuel c'.1 c'.2)) ∧
    (∀ c₁ s c₂ c₃ s' c₄, DfsStep p c₁ (some s) c₂ →
      Relation.ReflTransGen (fun a b => ∃ l, DfsStep p a l b) c₂ c₃ →
      DfsStep p c₃ (some s') c₄ → s' ≠ s) ∧
    (∀ c l c', BfsStep p c l c' →
      (∀ x ∈ c.2, x ∈ c'.2) ∧
      (∀ s, l = some s → s ∉ c.2 ∧ s ∈ c'.2) ∧
      (∀ fuel, bfsLoop p (fuel + 1) c.1 c.2 =
        bfsLoop p fuel c'.1 c'.2)) ∧
    (∀ c₁ s c₂ c₃ s' c₄, BfsStep p c₁ (some s) c₂ →
      Relation.ReflTransGen (fun a b => ∃ l, BfsStep p a l b) c₂ c₃ →
      BfsStep p c₃ (some s') c₄ → s' ≠ s) ∧
    (∀ c l c', UcsStep p c l c' →
      (∀ x ∈ c.2, x ∈ c'.2) ∧
      (∀ s, l = some s → s ∉ c.2 ∧ s ∈ c'.2) ∧
      (∀ fuel, ucsLoop p (fuel + 1) c.1 c.2 =
        ucsLoop p fuel c'.1 c'.2)) ∧
    (∀ c₁ s c₂ c₃ s' c₄, UcsStep p c₁ (some s) c₂ →
      Relation.ReflTransGen (fun a b => ∃ l, UcsStep p a l b) c₂ c₃ →
      UcsStep p c₃ (some s') c₄ → s' ≠ s) ∧
    (∀ c l c', AStarStep p heuristic c l c' →
      (∀ x ∈ c.2, x ∈ c'.2) ∧
      (∀ s, l = some s → s ∉ c.2 ∧ s ∈ c'.2) ∧
      (∀ fuel, aStarLoop p heuristic (fuel + 1) c.1 c.2 =
        aStarLoop p heuristic fuel c'.1 c'.2)) ∧
    (∀ c₁ s c₂ c₃ s' c₄, AStarStep p heuristic c₁ (some s) c₂ →
      Relation.ReflTransGen
        (fun a b => ∃ l, AStarStep p heuristic a l b) c₂ c₃ →
      AStarStep p heuristic c₃ (some s') c₄ → s' ≠ s) := by
  refine ⟨?_, ?_, ?_, ?_, ?_, ?_, ?_, ?_⟩
  · intro c l c' h
    refine ⟨dfs_step_grow p c l c' h, ?_, dfs_step_corr p c l c' h⟩
    intro s hl
    subst hl
    exact dfs_step_mark p c s c' h
  · intro c₁ s c₂ c₃ s' c₄ h₁ hchain h₂
    exact step_no_reexpand (dfs_step_grow p) (dfs_step_mark p)
      h₁ hchain h₂
  · intro c l c' h
    refine ⟨bfs_step_grow p c l c' h, ?_, bfs_step_corr p c l c' h⟩
    intro s hl
    subst hl
    exact bfs_step_mark p c s c' h
  · intro c₁ s c₂ c₃ s' c₄ h₁ hchain h₂
    exact step_no_reexpand (bfs_step_grow p) (bfs_step_mark p)
      h₁ hchain h₂
  · intro c l c' h
    refine ⟨ucs_step_grow p c l c' h, ?_, ucs_step_corr p c l c' h⟩
    intro s hl
    subst hl
    exact ucs_step_mark p c s c' h
  · intro c₁ s c₂ c₃ s' c₄ h₁ hchain h₂
    exact step_no_reexpand (ucs_step_grow p) (ucs_step_mark p)
      h₁ hchain h₂
  · intro c l c' h
    refine ⟨astar_step_grow p heuristic c l c' h, ?_,
      astar_step_corr p heuristic c l c' h⟩
    intro s hl
    subst hl
    exact astar_step_mark p heuristic c s c' h
  · intro c₁ s c₂ c₃ s' c₄ h₁ hchain h₂
    exact step_no_reexpand (astar_step_grow p heuristic)
      (astar_step_mark p heuristic) h₁ hchain h₂

theorem c8_witness :
    (∀ x ∈ ([0] : List Nat), x ∈ ([0] : List Nat)) ∧
    ((2 : Nat) ≠ 0) ∧
    (∀ x ∈ ([1] : List Nat), x ∈ ([1] : List Nat)) ∧
    (∀ x ∈ ([2] : List Nat), x ∈ ([2] : List Nat)) ∧
    (∀ x ∈ ([3] : List Nat), x ∈ ([3] : List Nat)) := by
  have hdfsStale : DfsStep egProblem
      (⟨[((0 : Nat), ([] : List Nat))]⟩, [0]) none (⟨[]⟩, [0]) :=
    DfsStep.stale (by decide)
  have h₁ : DfsStep egBlocked (⟨[((0 : Nat), ([] : List Nat))]⟩, [])
      (some 0) (⟨[(2, [1]), (1, [0])]⟩, [0]) :=
    DfsStep.expand (by decide) rfl
  have h₂ : DfsStep egBlocked (⟨[((2 : Nat), [1]), (1, [0])]⟩, [0])
      (some 2) (⟨[(1, [0])]⟩, [2, 0]) :=
    DfsStep.expand (by decide) rfl
  have hbfsStale : BfsStep egProblem
      (⟨[((1 : Nat), ([] : List Nat))]⟩, [1]) none (⟨[]⟩, [1]) :=
    BfsStep.stale (by decide)
  have hucsStale : UcsStep egProblem
      (⟨[(0, 0, ((2 : Nat), ([] : List Nat), 0))], 1⟩, [2]) none
      (⟨[], 1⟩, [2]) :=
    UcsStep.stale rfl rfl (by decide)
  have hastarStale : AStarStep egProblem nullHeuristic
      (⟨[(0, 0, ((3 : Nat), ([] : List Nat), 0))], 1⟩, [3]) none
      (⟨[], 1⟩, [3]) :=
    AStarStep.stale rfl rfl (by decide)
  refine ⟨?_, ?_, ?_, ?_, ?_⟩
  · exact ((c8_visited_monotone_never_reexpanded egProblem
      nullHeuristic).1 _ none _ hdfsStale).1
  · exact (c8_visited_monotone_never_reexpanded egBlocked
      nullHeuristic).2.1 _ 0 _ _ 2 _ h₁ Relation.ReflTransGen.refl h₂
  · exact ((c8_visited_monotone_never_reexpanded egProblem
      nullHeuristic).2.2.1 _ none _ hbfsStale).1
  · exact ((c8_visited_monotone_never_reexpanded egProblem
      nullHeuristic).2.2.2.2.1 _ none _ hucsStale).1
  · exact ((c8_visited_monotone_never_reexpanded egProblem
      nullHeuristic).2.2.2.2.2.2.1 _ none _ hastarStale).1

theorem stack_fold_length {α β : Type} (G : β → Prop) [DecidablePred G]
    (payload : β → α) :
    ∀ (l : List β) (s : Stack α),
      ((l.foldl (fun f t => if G t then f
        else f.push (payload t)) s).list).length ≤
        s.list.length + l.length := by
  intro l
  induction l with
  | nil => intro s; simp
  | cons t ts ih =>
    intro s
    simp only [List.foldl_cons, List.length_cons]
    by_cases h : G t
    · rw [if_pos h]
      have := ih s
      omega
    · rw [if_neg h]
      have h2 := ih (s.push (payload t))
      have h3 : (s.push (payload t)).list.length = s.list.length + 1 :=
        rfl
      omega

theorem pushQList_length_le {α β : Type} (G : β → Prop)
    [DecidablePred G] (payload : β → α) :
    ∀ l : List β, (pushQList G payload l).length ≤ l.length := by
  intro l
  induction l with
  | nil => simp [pushQList]
  | cons t ts ih =>
    simp only [pushQList, List.length_cons]
    by_cases h : G t
    · rw [if_pos h]; omega
    · rw [if_neg h]; simp only [List.length_cons]; omega

theorem pushPQList_length_le {α β : Type} (G : β → Prop)
    [DecidablePred G] (payload : β → α) (prio : β → Nat) :
    ∀ (l : List β) (c : Nat),
      (pushPQList G payload prio c l).length ≤ l.length := by
  intro l
  induction l with
  | nil => intro c; simp [pushPQList]
  | cons t ts ih =>
    intro c
    simp only [pushPQList, List.length_cons]
    by_cases h : G t
    · rw [if_pos h]
      have := ih c
      omega
    · rw [if_neg h]
      simp only [List.length_cons]
      have := ih (c + 1)
      omega

theorem filter_not_mem_cons [DecidableEq S] (R : Finset S) (s : S)
    (vis : List S) (hs : s ∈ R) (hv : s ∉ vis) :
    R.filter (fun v => v ∉ vis) =
      insert s (R.filter (fun v => v ∉ s :: vis)) := by
  ext v
  simp only [Finset.mem_filter, Finset.mem_insert, List.mem_cons]
  by_cases hvs : v = s
  · subst hvs
    simp [hs, hv]
  · constructor
    · rintro ⟨h1, h2⟩
      exact Or.inr ⟨h1, by tauto⟩
    · rintro (h | ⟨h1, h2⟩)
      · exact absurd h hvs
      · exact ⟨h1, by tauto⟩

theorem dfsLoop_terminates [DecidableEq S] (p : Problem S A)
    (R : Finset S)
    (hclosed : ∀ v ∈ R, ∀ t ∈ p.getSuccessors v, t.1 ∈ R) :
    ∀ (fuel : Nat) (fr : Stack (S × List A)) (vis : List S),
      (∀ e ∈ fr.list, e.1 ∈ R) →
      fr.list.length + ∑ v in R.filter (fun v => v ∉ vis),
        (1 + (p.getSuccessors v).length) < fuel →
      dfsLoop p fuel fr vis ≠ none := by
  intro fuel
  induction fuel with
  | zero =>
    intro fr vis hR hm
    omega
  | succ n ih =>
    intro fr vis hR hm
    by_cases he : fr.isEmpty
    · simp [dfsLoop, he]
    · cases hl : fr.list with
      | nil => exact absurd (by simp [Stack.isEmpty, hl]) he
      | cons e₀ rest =>
        obtain ⟨s₀, path₀⟩ := e₀
        have hpop : fr.pop = some ((s₀, path₀), ⟨rest⟩) := by
          simp [Stack.pop, hl]
        have hs₀R : s₀ ∈ R :=
          hR (s₀, path₀) (by rw [hl]; exact List.mem_cons_self _ _)
        rw [hl] at hm
        simp only [List.length_cons] at hm
        simp only [dfsLoop, if_neg he, hpop]
        by_cases hv : s₀ ∈ vis
        · rw [if_pos hv]
          refine ih ⟨rest⟩ vis ?_ ?_
          · intro e hee
            exact hR e (by rw [hl]; exact List.mem_cons_of_mem _ hee)
          · have hr : (⟨rest⟩ : Stack (S × List A)).list.length =
                rest.length := rfl
            omega
        · rw [if_neg hv]
          by_cases hg : p.isGoalState s₀
          · simp [hg]
          · rw [if_neg hg]
            have hsum : (∑ x in (R.filter (fun v => v ∉ vis)).erase s₀,
                  (1 + (p.getSuccessors x).length)) +
                  (1 + (p.getSuccessors s₀).length) =
                ∑ x in R.filter (fun v => v ∉ vis),
                  (1 + (p.getSuccessors x).length) :=
              Finset.sum_erase_add _ _
                (Finset.mem_filter.mpr ⟨hs₀R, hv⟩)
            have hfe : (R.filter (fun v => v ∉ vis)).erase s₀ =
                R.filter (fun v => v ∉ s₀ :: vis) := by
              rw [filter_not_mem_cons R s₀ vis hs₀R hv]
              rw [Finset.erase_insert]
              simp only [Finset.mem_filter]
              rintro ⟨_, habs⟩
              exact habs (List.mem_cons_self _ _)
            have hflen := stack_fold_length
              (fun (t : S × A × Nat) => t.1 ∈ s₀ :: vis)
              (fun (t : S × A × Nat) => (t.1, path₀ ++ [t.2.1]))
              (p.getSuccessors s₀) ⟨rest⟩
            refine ih _ (s₀ :: vis) ?_ ?_
            · intro e hee
              rcases (stack_fold_list
                  (fun (t : S × A × Nat) => t.1 ∈ s₀ :: vis)
                  (fun (t : S × A × Nat) => (t.1, path₀ ++ [t.2.1]))
                  (p.getSuccessors s₀) ⟨rest⟩ e).mp hee with
                hee | ⟨t, ht, _, hte⟩
              · exact hR e (by rw [hl]; exact List.mem_cons_of_mem _ hee)
              · subst hte
                exact hclosed s₀ hs₀R t ht
            · rw [← hfe]
              have hflen2 : (List.foldl
                  (fun (f : Stack (S × List A)) (t : S × A × Nat) =>
                    if t.1 ∈ s₀ :: vis then f
                    else f.push (t.1, path₀ ++ [t.2.1]))
                  ⟨rest⟩ (p.getSuccessors s₀)).list.length ≤
                  rest.length + (p.getSuccessors s₀).length := by
                exact stack_fold_length _ _ _ _
              omega

theorem bfsLoop_terminates [DecidableEq S] (p : Problem S A)
    (R : Finset S)
    (hclosed : ∀ v ∈ R, ∀ t ∈ p.getSuccessors v, t.1 ∈ R) :
    ∀ (fuel : Nat) (fr : Queue (S × List A)) (vis : List S),
      (∀ e ∈ fr.queue, e.1 ∈ R) →
      fr.queue.length + ∑ v in R.filter (fun v => v ∉ vis),
        (1 + (p.getSuccessors v).length) < fuel →
      bfsLoop p fuel fr vis ≠ none := by
  intro fuel
  induction fuel with
  | zero =>
    intro fr vis hR hm
    omega
  | succ n ih =>
    intro fr vis hR hm
    by_cases he : fr.isEmpty
    · simp [bfsLoop, he]
    · cases hl : fr.queue with
      | nil => exact absurd (by simp [Queue.isEmpty, hl]) he
      | cons e₀ rest =>
        obtain ⟨s₀, path₀⟩ := e₀
        have hpop : fr.pop = some ((s₀, path₀), ⟨rest⟩) := by
          simp [Queue.pop, hl]
        have hs₀R : s₀ ∈ R :=
          hR (s₀, path₀) (by rw [hl]; exact List.mem_cons_self _ _)
        rw [hl] at hm
        simp only [List.length_cons] at hm
        simp only [bfsLoop, if_neg he, hpop]
        by_cases hv : s₀ ∈ vis
        · rw [if_pos hv]
          refine ih ⟨rest⟩ vis ?_ ?_
          · intro e hee
            exact hR e (by rw [hl]; exact List.mem_cons_of_mem _ hee)
          · have hr : (⟨rest⟩ : Queue (S × List A)).queue.length =
                rest.length := rfl
            omega
        · rw [if_neg hv]
          by_cases hg : p.isGoalState s₀
          · simp [hg]
          · rw [if_neg hg]
            have hsum : (∑ x in (R.filter (fun v => v ∉ vis)).erase s₀,
                  (1 + (p.getSuccessors x).length)) +
                  (1 + (p.getSuccessors s₀).length) =
                ∑ x in R.filter (fun v => v ∉ vis),
                  (1 + (p.getSuccessors x).length) :=
              Finset.sum_erase_add _ _
                (Finset.mem_filter.mpr ⟨hs₀R, hv⟩)
            have hfe : (R.filter (fun v => v ∉ vis)).erase s₀ =
                R.filter (fun v => v ∉ s₀ :: vis) := by
              rw [filter_not_mem_cons R s₀ vis hs₀R hv]
              rw [Finset.erase_insert]
              simp only [Finset.mem_filter]
              rintro ⟨_, habs⟩
              exact habs (List.mem_cons_self _ _)
            refine ih _ (s₀ :: vis) ?_ ?_
            · intro e hee
              rw [queue_fold_eq] at hee
              rcases List.mem_append.mp hee with hee | hee
              · exact hR e (by rw [hl]; exact List.mem_cons_of_mem _ hee)
              · obtain ⟨t, ht, _, hte⟩ :=
                  (mem_pushQList (fun (t : S × A × Nat) => t.1 ∈ s₀ :: vis)
                    (fun (t : S × A × Nat) =>
                      (t.1, path₀ ++ [t.2.1]))).mp hee
                subst hte
                exact hclosed s₀ hs₀R t ht
            · rw [← hfe]
              have hq : (List.foldl
                  (fun (f : Queue (S × List A)) (t : S × A × Nat) =>
                    if t.1 ∈ s₀ :: vis then f
                    else f.push (t.1, path₀ ++ [t.2.1]))
                  ⟨rest⟩ (p.getSuccessors s₀)).queue =
                  (⟨rest⟩ : Queue (S × List A)).queue ++
                    pushQList (fun (t : S × A × Nat) => t.1 ∈ s₀ :: vis)
                      (fun (t : S × A × Nat) => (t.1, path₀ ++ [t.2.1]))
                      (p.getSuccessors s₀) :=
                queue_fold_eq _ _ _ _
              rw [hq, List.length_append]
              have h5 := pushQList_length_le
                (fun (t : S × A × Nat) => t.1 ∈ s₀ :: vis)
                (fun (t : S × A × Nat) => (t.1, path₀ ++ [t.2.1]))
                (p.getSuccessors s₀)
              have h6 : (⟨rest⟩ : Queue (S × List A)).queue.length =
                  rest.length := rfl
              omega

theorem aStarLoop_terminates [DecidableEq S] (p : Problem S A)
    (heuristic : S → Nat) (R : Finset S)
    (hclosed : ∀ v ∈ R, ∀ t ∈ p.getSuccessors v, t.1 ∈ R) :
    ∀ (fuel : Nat) (fr : PriorityQueue (S × List A × Nat))
      (vis : List S),
      (∀ e ∈ fr.heap, e.2.2.1 ∈ R) →
      fr.heap.length + ∑ v in R.filter (fun v => v ∉ vis),
        (1 + (p.getSuccessors v).length) < fuel →
      aStarLoop p heuristic fuel fr vis ≠ none := by
  intro fuel
  induction fuel with
  | zero =>
    intro fr vis hR hm
    omega
  | succ n ih =>
    intro fr vis hR hm
    by_cases he : fr.isEmpty
    · simp [aStarLoop, he]
    · cases hp : fr.pop with
      | none => simp [aStarLoop, he, hp]
      | some x =>
        obtain ⟨⟨s₀, path₀, g₀⟩, rest'⟩ := x
        obtain ⟨m, restl, hpm, hmx, hrest⟩ := pq_pop_inv hp
        have hperm := popMinEntry_perm hpm
        have hlen : fr.heap.length = restl.length + 1 := by
          have := hperm.length_eq
          simpa using this
        have hmmem : m ∈ fr.heap :=
          hperm.symm.subset (List.mem_cons_self _ _)
        have hs₀R : s₀ ∈ R := by
          have := hR m hmmem
          rw [hmx] at this
          exact this
        simp only [aStarLoop, if_neg he, hp]
        by_cases hv : s₀ ∈ vis
        · rw [if_pos hv]
          refine ih rest' vis ?_ ?_
          · intro e hee
            rw [hrest] at hee
            exact hR e
              (hperm.symm.subset (List.mem_cons_of_mem _ hee))
          · have hr : rest'.heap.length = restl.length := by
              rw [hrest]
            omega
        · rw [if_neg hv]
          by_cases hg : p.isGoalState s₀
          · simp [hg]
          · rw [if_neg hg]
            have hsum : (∑ x in (R.filter (fun v => v ∉ vis)).erase s₀,
                  (1 + (p.getSuccessors x).length)) +
                  (1 + (p.getSuccessors s₀).length) =
                ∑ x in R.filter (fun v => v ∉ vis),
                  (1 + (p.getSuccessors x).length) :=
              Finset.sum_erase_add _ _
                (Finset.mem_filter.mpr ⟨hs₀R, hv⟩)
            have hfe : (R.filter (fun v => v ∉ vis)).erase s₀ =
                R.filter (fun v => v ∉ s₀ :: vis) := by
              rw [filter_not_mem_cons R s₀ vis hs₀R hv]
              rw [Finset.erase_insert]
              simp only [Finset.mem_filter]
              rintro ⟨_, habs⟩
              exact habs (List.mem_cons_self _ _)
            refine ih _ (s₀ :: vis) ?_ ?_
            · intro e hee
              rw [pq_fold_eq] at hee
              simp only [List.mem_append, List.mem_reverse] at hee
              rcases hee with hee | hee
              · obtain ⟨⟨t, ht, _, hte₁, hte₂⟩, _, _⟩ :=
                  mem_pushPQList _ _ _ hee
                have : e.2.2.1 = t.1 := by rw [hte₂]
                rw [this]
                exact hclosed s₀ hs₀R t ht
              · rw [hrest] at hee
                exact hR e
                  (hperm.symm.subset (List.mem_cons_of_mem _ hee))
            · rw [← hfe]
              have hq : (List.foldl
                  (fun (f : PriorityQueue (S × List A × Nat))
                      (t : S × A × Nat) =>
                    if t.1 ∈ s₀ :: vis then f
                    else f.push (t.1, path₀ ++ [t.2.1], g₀ + t.2.2)
                      ((g₀ + t.2.2) + heuristic t.1))
                  rest' (p.getSuccessors s₀)).heap =
                  (pushPQList
                    (fun (t : S × A × Nat) => t.1 ∈ s₀ :: vis)
                    (fun (t : S × A × Nat) =>
                      (t.1, path₀ ++ [t.2.1], g₀ + t.2.2))
                    (fun (t : S × A × Nat) =>
                      (g₀ + t.2.2) + heuristic t.1)
                    rest'.count (p.getSuccessors s₀)).reverse ++
                    rest'.heap := by
                rw [pq_fold_eq]
              rw [hq, List.length_append, List.length_reverse]
              have h5 := pushPQList_length_le
                (fun (t : S × A × Nat) => t.1 ∈ s₀ :: vis)
                (fun (t : S × A × Nat) =>
                  (t.1, path₀ ++ [t.2.1], g₀ + t.2.2))
                (fun (t : S × A × Nat) => (g₀ + t.2.2) + heuristic t.1)
                (p.getSuccessors s₀) rest'.count
              have h6 : rest'.heap.length = restl.length := by
                rw [hrest]
              omega

theorem ucsLoop_terminates [DecidableEq S] (p : Problem S A)
    (R : Finset S)
    (hclosed : ∀ v ∈ R, ∀ t ∈ p.getSuccessors v, t.1 ∈ R) :
    ∀ (fuel : Nat) (fr : PriorityQueue (S × List A × Nat))
      (vis : List S),
      (∀ e ∈ fr.heap, e.2.2.1 ∈ R) →
      fr.heap.length + ∑ v in R.filter (fun v => v ∉ vis),
        (1 + (p.getSuccessors v).length) < fuel →
      ucsLoop p fuel fr vis ≠ none := by
  intro fuel fr vis hR hm
  rw [← aStarLoop_nullHeuristic]
  exact aStarLoop_terminates p nullHeuristic R hclosed fuel fr vis hR hm

/-- Claim C3: on a problem whose reachable state space is contained
in a finite set `R` closed under successors, each of the four search
functions terminates — some finite fuel makes the loop return a
result (a path or the sentinel) instead of running out — and a popped
state that is already visited is discarded without a fresh expansion
(one loop unfolding just drops it). -/
theorem c3_termination_finite [DecidableEq S] (p : Problem S A)
    (R : Finset S) (hstart : p.getStartState ∈ R)
    (hclosed : ∀ v ∈ R, ∀ t ∈ p.getSuccessors v, t.1 ∈ R) :
    (∃ fuel r, depthFirstSearch p fuel = some r) ∧
    (∃ fuel r, breadthFirstSearch p fuel = some r) ∧
    (∃ fuel r, uniformCostSearch p fuel = some r) ∧
    (∀ heuristic, ∃ fuel r, aStarSearch p heuristic fuel = some r) ∧
    (∀ fuel (s : S) (path : List A) rest vis, s ∈ vis →
      dfsLoop p (fuel + 1) ⟨(s, path) :: rest⟩ vis =
        dfsLoop p fuel ⟨rest⟩ vis) ∧
    (∀ fuel (s : S) (path : List A) rest vis, s ∈ vis →
      bfsLoop p (fuel + 1) ⟨(s, path) :: rest⟩ vis =
        bfsLoop p fuel ⟨rest⟩ vis) ∧
    (∀ fuel fr m restl (s : S) (path : List A) (g : Nat) vis,
      popMinEntry fr.heap = some (m, restl) → m.2.2 = (s, path, g) →
      s ∈ vis → ucsLoop p (fuel + 1) fr vis =
        ucsLoop p fuel ⟨restl, fr.count⟩ vis) ∧
    (∀ heuristic fuel fr m restl (s : S) (path : List A) (g : Nat) vis,
      popMinEntry fr.heap = some (m, restl) → m.2.2 = (s, path, g) →
      s ∈ vis → aStarLoop p heuristic (fuel + 1) fr vis =
        aStarLoop p heuristic fuel ⟨restl, fr.count⟩ vis) := by
  have hfilter : R.filter (fun v => v ∉ ([] : List S)) = R :=
    Finset.filter_true_of_mem (fun x _ => by simp)
  have hm : ∀ frlen : Nat, frlen ≤ 1 →
      frlen + ∑ v in R.filter (fun v => v ∉ ([] : List S)),
        (1 + (p.getSuccessors v).length) <
      2 + ∑ v in R, (1 + (p.getSuccessors v).length) := by
    intro frlen hfr
    rw [hfilter]
    omega
  refine ⟨?_, ?_, ?_, ?_, ?_, ?_, ?_, ?_⟩
  · have h := dfsLoop_terminates p R hclosed
      (2 + ∑ v in R, (1 + (p.getSuccessors v).length))
      (Stack.push ⟨[]⟩ (p.getStartState, [])) []
      (by
        intro e hee
        simp only [Stack.push, List.mem_singleton] at hee
        subst hee
        exact hstart)
      (hm _ (by simp [Stack.push]))
    rcases hr : depthFirstSearch p
        (2 + ∑ v in R, (1 + (p.getSuccessors v).length)) with _ | r
    · exact absurd hr h
    · exact ⟨_, r, hr⟩
  · have h := bfsLoop_terminates p R hclosed
      (2 + ∑ v in R, (1 + (p.getSuccessors v).length))
      (Queue.push ⟨[]⟩ (p.getStartState, [])) []
      (by
        intro e hee
        simp only [Queue.push, List.nil_append, List.mem_singleton] at hee
        subst hee
        exact hstart)
      (hm _ (by simp [Queue.push]))
    rcases hr : breadthFirstSearch p
        (2 + ∑ v in R, (1 + (p.getSuccessors v).length)) with _ | r
    · exact absurd hr h
    · exact ⟨_, r, hr⟩
  · have h := ucsLoop_terminates p R hclosed
      (2 + ∑ v in R, (1 + (p.getSuccessors v).length))
      (PriorityQueue.empty.push (p.getStartState, [], 0) 0) []
      (by
        intro e hee
        simp only [PriorityQueue.push, PriorityQueue.empty,
          List.mem_singleton] at hee
        subst hee
        exact hstart)
      (hm _ (by simp [PriorityQueue.push, PriorityQueue.empty]))
    rcases hr : uniformCostSearch p
        (2 + ∑ v in R, (1 + (p.getSuccessors v).length)) with _ | r
    · exact absurd hr h
    · exact ⟨_, r, hr⟩
  · intro heuristic
    have h := aStarLoop_terminates p heuristic R hclosed
      (2 + ∑ v in R, (1 + (p.getSuccessors v).length))
      (PriorityQueue.empty.push (p.getStartState, [], 0)
        (0 + heuristic p.getStartState)) []
      (by
        intro e hee
        simp only [PriorityQueue.push, PriorityQueue.empty,
          List.mem_singleton] at hee
        subst hee
        exact hstart)
      (hm _ (by simp [PriorityQueue.push, PriorityQueue.empty]))
    rcases hr : aStarSearch p heuristic
        (2 + ∑ v in R, (1 + (p.getSuccessors v).length)) with _ | r
    · exact absurd hr h
    · exact ⟨_, r, hr⟩
  · intro fuel s path rest vis hs
    exact dfs_step_corr p _ none _ (DfsStep.stale hs) fuel
  · intro fuel s path rest vis hs
    exact bfs_step_corr p _ none _ (BfsStep.stale hs) fuel
  · intro fuel fr m restl s path g vis hpm hmm hs
    exact ucs_step_corr p _ none _ (UcsStep.stale hpm hmm hs) fuel
  · intro heuristic fuel fr m restl s path g vis hpm hmm hs
    exact astar_step_corr p heuristic _ none _
      (AStarStep.stale hpm hmm hs) fuel

theorem c3_witness :
    ((∃ fuel r, depthFirstSearch egProblem fuel = some r) ∧
      (∃ fuel r, breadthFirstSearch egProblem fuel = some r) ∧
      (∃ fuel r, uniformCostSearch egProblem fuel = some r) ∧
      (∃ fuel r, aStarSearch egProblem nullHeuristic fuel = some r)) ∧
    (dfsLoop egProblem (0 + 1) ⟨[((0 : Nat), ([] : List Nat))]⟩ [0] =
      dfsLoop egProblem 0 ⟨[]⟩ [0]) ∧
    (ucsLoop egProblem (0 + 1)
        ⟨[(0, 0, ((0 : Nat), ([] : List Nat), 0))], 1⟩ [0] =
      ucsLoop egProblem 0 ⟨[], 1⟩ [0]) := by
  have C := c3_termination_finite egProblem {0, 1, 2} (by decide)
    (by decide)
  exact ⟨⟨C.1, C.2.1, C.2.2.1, C.2.2.2.1 nullHeuristic⟩,
    C.2.2.2.2.1 0 0 [] [] [0] (by decide),
    C.2.2.2.2.2.2.1 0 ⟨[(0, 0, (0, [], 0))], 1⟩ (0, 0, (0, [], 0)) []
      0 [] 0 [0] rfl rfl (by decide)⟩

/-- The Dijkstra/A* loop invariant for `aStarLoop`, with ghost
function `dv` recording the (optimal) cost at which each visited
state was expanded: every heap entry carries a valid path of its
recorded g-cost and priority `g + h(state)`; every visited state has
an optimal recorded cost; every successor edge out of a visited state
is covered by the visited set or by a heap entry; visited f-values
are lower bounds for all heap priorities; the start state is covered;
and no visited state is a goal. -/
def AInv (p : Problem S A) (h : S → Nat)
    (fr : PriorityQueue (S × List A × Nat)) (vis : List S) : Prop :=
  ∃ dv : S → Nat,
    (∀ e ∈ fr.heap,
      Reaches p p.getStartState e.2.2.2.1 e.2.2.1 e.2.2.2.2 ∧
        e.1 = e.2.2.2.2 + h e.2.2.1) ∧
    (∀ v ∈ vis,
      (∃ path, Reaches p p.getStartState path v (dv v)) ∧
      (∀ acts c, Reaches p p.getStartState acts v c → dv v ≤ c)) ∧
    (∀ v ∈ vis, ∀ t ∈ p.getSuccessors v,
      t.1 ∈ vis ∨
        ∃ e ∈ fr.heap, e.2.2.1 = t.1 ∧ e.1 ≤ (dv v + t.2.2) + h t.1) ∧
    (∀ v ∈ vis, ∀ e ∈ fr.heap, dv v + h v ≤ e.1) ∧
    (p.getStartState ∈ vis ∨
      ∃ e ∈ fr.heap, e.2.2.1 = p.getStartState ∧
        e.1 ≤ h p.getStartState) ∧
    (∀ v ∈ vis, p.isGoalState v = false)

theorem a_cover (p : Problem S A) (h : S → Nat)
    (hcons : Consistent p h) (fr : PriorityQueue (S × List A × Nat))
    (vis : List S) (dv : S → Nat)
    (hdvlow : ∀ v ∈ vis, ∀ acts c,
      Reaches p p.getStartState acts v c → dv v ≤ c)
    (hrelaxed : ∀ v ∈ vis, ∀ t ∈ p.getSuccessors v,
      t.1 ∈ vis ∨
        ∃ e ∈ fr.heap, e.2.2.1 = t.1 ∧ e.1 ≤ (dv v + t.2.2) + h t.1)
    (hseeded : p.getStartState ∈ vis ∨
      ∃ e ∈ fr.heap, e.2.2.1 = p.getStartState ∧
        e.1 ≤ h p.getStartState) :
    ∀ {acts : List A} {t : S} {c : Nat},
      Reaches p p.getStartState acts t c → t ∉ vis →
      ∃ e ∈ fr.heap, e.1 ≤ c + h t := by
  intro acts t c hr
  induction hr with
  | nil =>
    intro ht
    rcases hseeded with hst | ⟨e, he, _, hep⟩
    · exact absurd hst ht
    · exact ⟨e, he, by omega⟩
  | @snoc u t' acts' a c₁ w hr' hedge ih =>
    intro ht'
    by_cases hu : u ∈ vis
    · rcases hrelaxed u hu (t', a, w) hedge with h1 | ⟨e, he, _, hep⟩
      · exact absurd h1 ht'
      · have hlow := hdvlow u hu acts' c₁ hr'
        have hep' : e.1 ≤ (dv u + w) + h t' := hep
        exact ⟨e, he, by omega⟩
    · obtain ⟨e, he, hep⟩ := ih hu
      have hc : h u ≤ w + h t' := hcons u (t', a, w) hedge
      exact ⟨e, he, by omega⟩

theorem ainv_init (p : Problem S A) (h : S → Nat) :
    AInv p h
      (PriorityQueue.empty.push (p.getStartState, [], 0)
        (0 + h p.getStartState)) [] := by
  refine ⟨fun _ => 0, ?_, ?_, ?_, ?_, ?_, ?_⟩
  · intro e hee
    simp only [PriorityQueue.push, PriorityQueue.empty,
      List.mem_singleton] at hee
    subst hee
    exact ⟨Reaches.nil _, rfl⟩
  · intro v hv; simp at hv
  · intro v hv; simp at hv
  · intro v hv; simp at hv
  · refine Or.inr ⟨(0 + h p.getStartState, 0, (p.getStartState, [], 0)),
      ?_, rfl, by omega⟩
    simp [PriorityQueue.push, PriorityQueue.empty]
  · intro v hv; simp at hv

theorem ainv_stale (p : Problem S A) (h : S → Nat)
    {fr : PriorityQueue (S × List A × Nat)} {vis : List S}
    {m : Nat × Nat × S × List A × Nat}
    {restl : List (Nat × Nat × S × List A × Nat)}
    (hinv : AInv p h fr vis)
    (hpm : popMinEntry fr.heap = some (m, restl))
    (hs : m.2.2.1 ∈ vis) :
    AInv p h ⟨restl, fr.count⟩ vis := by
  obtain ⟨dv, hvalid, hdvopt, hrelaxed, hmono, hseeded, hnogoal⟩ := hinv
  have hperm := popMinEntry_perm hpm
  have hmem_to : ∀ e ∈ restl, e ∈ fr.heap :=
    fun e hee => hperm.symm.subset (List.mem_cons_of_mem _ hee)
  have hmem_of : ∀ e ∈ fr.heap, e = m ∨ e ∈ restl :=
    fun e hee => List.mem_cons.mp (hperm.subset hee)
  refine ⟨dv, ?_, hdvopt, ?_, ?_, ?_, hnogoal⟩
  · intro e hee
    exact hvalid e (hmem_to e hee)
  · intro v hv t ht
    rcases hrelaxed v hv t ht with h1 | ⟨e, he, hes, hep⟩
    · exact Or.inl h1
    · rcases hmem_of e he with rfl | he'
      · exact Or.inl (hes ▸ hs)
      · exact Or.inr ⟨e, he', hes, hep⟩
  · intro v hv e hee
    exact hmono v hv e (hmem_to e hee)
  · rcases hseeded with h1 | ⟨e, he, hes, hep⟩
    · exact Or.inl h1
    · rcases hmem_of e he with rfl | he'
      · exact Or.inl (hes ▸ hs)
      · exact Or.inr ⟨e, he', hes, hep⟩

theorem ainv_expand (p : Problem S A) (h : S → Nat) [DecidableEq S]
    (hcons : Consistent p h)
    {fr : PriorityQueue (S × List A × Nat)} {vis : List S}
    {m : Nat × Nat × S × List A × Nat}
    {restl : List (Nat × Nat × S × List A × Nat)}
    {s : S} {path : List A} {g : Nat}
    (hinv : AInv p h fr vis)
    (hpm : popMinEntry fr.heap = some (m, restl))
    (hmx : m.2.2 = (s, path, g)) (hs : s ∉ vis)
    (hg : p.isGoalState s = false) :
    AInv p h
      ((p.getSuccessors s).foldl
        (fun f t => if t.1 ∈ s :: vis then f
          else f.push (t.1, path ++ [t.2.1], g + t.2.2)
            ((g + t.2.2) + h t.1))
        ⟨restl, fr.count⟩) (s :: vis) := by
  obtain ⟨dv, hvalid, hdvopt, hrelaxed, hmono, hseeded, hnogoal⟩ := hinv
  have hperm := popMinEntry_perm hpm
  have hmmem : m ∈ fr.heap :=
    hperm.symm.subset (List.mem_cons_self _ _)
  have hmem_to : ∀ e ∈ restl, e ∈ fr.heap :=
    fun e hee => hperm.symm.subset (List.mem_cons_of_mem _ hee)
  have hmem_of : ∀ e ∈ fr.heap, e = m ∨ e ∈ restl :=
    fun e hee => List.mem_cons.mp (hperm.subset hee)
  have hmval : Reaches p p.getStartState path s g := by
    have := (hvalid m hmmem).1
    rw [hmx] at this
    exact this
  have hmpr : m.1 = g + h s := by
    have := (hvalid m hmmem).2
    rw [hmx] at this
    exact this
  have hmin : ∀ e ∈ fr.heap, m.1 ≤ e.1 := by
    intro e hee
    have := popMinEntry_min hpm e hee
    simp only [lexLe] at this
    omega
  have glow : ∀ acts c', Reaches p p.getStartState acts s c' →
      g ≤ c' := by
    intro acts c' hr
    obtain ⟨e, he, hep⟩ := a_cover p h hcons fr vis dv
      (fun v hv => (hdvopt v hv).2) hrelaxed hseeded hr hs
    have h1 := hmin e he
    omega
  have hnew_from : ∀ e, e ∈ ((p.getSuccessors s).foldl
      (fun f t => if t.1 ∈ s :: vis then f
        else f.push (t.1, path ++ [t.2.1], g + t.2.2)
          ((g + t.2.2) + h t.1))
      (⟨restl, fr.count⟩ : PriorityQueue (S × List A × Nat))).heap →
      (∃ t, t ∈ p.getSuccessors s ∧ ¬(t.1 ∈ s :: vis) ∧
        e.1 = (g + t.2.2) + h t.1 ∧
        e.2.2 = (t.1, path ++ [t.2.1], g + t.2.2)) ∨ e ∈ restl := by
    intro e hee
    rw [pq_fold_eq] at hee
    simp only [List.mem_append, List.mem_reverse] at hee
    rcases hee with hee | hee
    · obtain ⟨⟨t, ht, htv, hte₁, hte₂⟩, _, _⟩ :=
        mem_pushPQList _ _ _ hee
      exact Or.inl ⟨t, ht, htv, hte₁, hte₂⟩
    · exact Or.inr hee
  have hold_in : ∀ e ∈ restl, e ∈ ((p.getSuccessors s).foldl
      (fun f t => if t.1 ∈ s :: vis then f
        else f.push (t.1, path ++ [t.2.1], g + t.2.2)
          ((g + t.2.2) + h t.1))
      (⟨restl, fr.count⟩ : PriorityQueue (S × List A × Nat))).heap := by
    intro e hee
    rw [pq_fold_eq]
    exact List.mem_append.mpr (Or.inr hee)
  have hpush_in : ∀ t, t ∈ p.getSuccessors s → ¬(t.1 ∈ s :: vis) →
      ∃ cnt, ((g + t.2.2) + h t.1, cnt,
        (t.1, path ++ [t.2.1], g + t.2.2)) ∈
        ((p.getSuccessors s).foldl
          (fun f t => if t.1 ∈ s :: vis then f
            else f.push (t.1, path ++ [t.2.1], g + t.2.2)
              ((g + t.2.2) + h t.1))
          (⟨restl, fr.count⟩ :
            PriorityQueue (S × List A × Nat))).heap := by
    intro t ht htv
    obtain ⟨cnt, hcnt⟩ := pushPQList_mem_of
      (fun (t : S × A × Nat) => t.1 ∈ s :: vis)
      (fun (t : S × A × Nat) => (t.1, path ++ [t.2.1], g + t.2.2))
      (fun (t : S × A × Nat) => (g + t.2.2) + h t.1) ht htv
      (⟨restl, fr.count⟩ :
        PriorityQueue (S × List A × Nat)).count
    refine ⟨cnt, ?_⟩
    rw [pq_fold_eq]
    refine List.mem_append.mpr (Or.inl ?_)
    rw [List.mem_reverse]
    exact hcnt
  refine ⟨fun v => if v = s then g else dv v, ?_, ?_, ?_, ?_, ?_, ?_⟩
  · intro e hee
    rcases hnew_from e hee with ⟨t, ht, htv, hte₁, hte₂⟩ | hee'
    · constructor
      · have : Reaches p p.getStartState (path ++ [t.2.1]) t.1
            (g + t.2.2) := Reaches.snoc hmval ht
        rw [hte₂]
        exact this
      · rw [hte₁, hte₂]
    · exact hvalid e (hmem_to e hee')
  · intro v hv
    rcases List.mem_cons.mp hv with rfl | hv'
    · dsimp only
      rw [if_pos rfl]
      exact ⟨⟨path, hmval⟩, fun acts c' hr => glow acts c' hr⟩
    · dsimp only
      rw [if_neg (fun heq : _ = s => hs (heq ▸ hv'))]
      exact hdvopt v hv'
  · intro v hv t ht
    rcases List.mem_cons.mp hv with rfl | hv'
    · by_cases htv : t.1 ∈ v :: vis
      · exact Or.inl htv
      · obtain ⟨cnt, hcnt⟩ := hpush_in t ht htv
        refine Or.inr ⟨((g + t.2.2) + h t.1, cnt,
          (t.1, path ++ [t.2.1], g + t.2.2)), hcnt, rfl, ?_⟩
        dsimp only
        rw [if_pos rfl]
    · dsimp only
      rw [if_neg (fun heq : _ = s => hs (heq ▸ hv'))]
      rcases hrelaxed v hv' t ht with h1 | ⟨e, he, hes, hep⟩
      · exact Or.inl (List.mem_cons_of_mem _ h1)
      · rcases hmem_of e he with rfl | he'
        · refine Or.inl ?_
          rw [← hes, hmx]
          exact List.mem_cons_self _ _
        · exact Or.inr ⟨e, hold_in e he', hes, hep⟩
  · intro v hv e hee
    rcases List.mem_cons.mp hv with rfl | hv'
    · dsimp only
      rw [if_pos rfl]
      rcases hnew_from e hee with ⟨t, ht, htv, hte₁, _⟩ | hee'
      · have hc : h v ≤ t.2.2 + h t.1 := hcons v t ht
        rw [hte₁]
        omega
      · have := hmin e (hmem_to e hee')
        omega
    · dsimp only
      rw [if_neg (fun heq : _ = s => hs (heq ▸ hv'))]
      rcases hnew_from e hee with ⟨t, ht, htv, hte₁, _⟩ | hee'
      · have hm1 := hmono v hv' m hmmem
        have hc : h s ≤ t.2.2 + h t.1 := hcons s t ht
        rw [hte₁]
        omega
      · exact hmono v hv' e (hmem_to e hee')
  · rcases hseeded with h1 | ⟨e, he, hes, hep⟩
    · exact Or.inl (List.mem_cons_of_mem _ h1)
    · rcases hmem_of e he with rfl | he'
      · refine Or.inl ?_
        rw [← hes, hmx]
        exact List.mem_cons_self _ _
      · exact Or.inr ⟨e, hold_in e he', hes, hep⟩
  · intro v hv
    rcases List.mem_cons.mp hv with rfl | hv'
    · exact hg
    · exact hnogoal v hv'

theorem ainv_goal_min (p : Problem S A) (h : S → Nat)
    (hcons : Consistent p h)
    (hgz : ∀ s, p.isGoalState s = true → h s = 0)
    {fr : PriorityQueue (S × List A × Nat)} {vis : List S}
    {m : Nat × Nat × S × List A × Nat}
    {restl : List (Nat × Nat × S × List A × Nat)}
    {s : S} {path : List A} {g : Nat}
    (hinv : AInv p h fr vis)
    (hpm : popMinEntry fr.heap = some (m, restl))
    (hmx : m.2.2 = (s, path, g)) (hgoal : p.isGoalState s = true) :
    Reaches p p.getStartState path s g ∧
      ∀ acts' t' c', Reaches p p.getStartState acts' t' c' →
        p.isGoalState t' = true → g ≤ c' := by
  obtain ⟨dv, hvalid, hdvopt, hrelaxed, hmono, hseeded, hnogoal⟩ := hinv
  have hperm := popMinEntry_perm hpm
  have hmmem : m ∈ fr.heap :=
    hperm.symm.subset (List.mem_cons_self _ _)
  have hmval : Reaches p p.getStartState path s g := by
    have := (hvalid m hmmem).1
    rw [hmx] at this
    exact this
  have hmpr : m.1 = g + h s := by
    have := (hvalid m hmmem).2
    rw [hmx] at this
    exact this
  have hmin : ∀ e ∈ fr.heap, m.1 ≤ e.1 := by
    intro e hee
    have := popMinEntry_min hpm e hee
    simp only [lexLe] at this
    omega
  refine ⟨hmval, ?_⟩
  intro acts' t' c' hr' hg'
  have ht'vis : t' ∉ vis := by
    intro hvt'
    have := hnogoal t' hvt'
    rw [hg'] at this
    exact absurd this (by decide)
  obtain ⟨e, he, hep⟩ := a_cover p h hcons fr vis dv
    (fun v hv => (hdvopt v hv).2) hrelaxed hseeded hr' ht'vis
  have h1 := hmin e he
  have h2 := hgz t' hg'
  have h3 := hgz s hgoal
  omega

theorem aStarLoop_optimal [DecidableEq S] (p : Problem S A)
    (h : S → Nat) (hcons : Consistent p h)
    (hgz : ∀ s, p.isGoalState s = true → h s = 0) :
    ∀ (fuel : Nat) (fr : PriorityQueue (S × List A × Nat))
      (vis : List S) (path : List A), AInv p h fr vis →
      aStarLoop p h fuel fr vis = some (some path) →
      ∃ t c, Reaches p p.getStartState path t c ∧
        p.isGoalState t = true ∧
        ∀ acts' t' c', Reaches p p.getStartState acts' t' c' →
          p.isGoalState t' = true → c ≤ c' := by
  intro fuel
  induction fuel with
  | zero =>
    intro fr vis path hinv hrun
    simp [aStarLoop] at hrun
  | succ n ih =>
    intro fr vis path hinv hrun
    by_cases he : fr.isEmpty
    · simp [aStarLoop, he] at hrun
    · cases hp : fr.pop with
      | none =>
        simp only [aStarLoop, if_neg he, hp] at hrun
        exact absurd hrun (by simp)
      | some x =>
        obtain ⟨⟨s₀, path₀, g₀⟩, rest'⟩ := x
        obtain ⟨m, restl, hpm, hmx, hrest⟩ := pq_pop_inv hp
        simp only [aStarLoop, if_neg he, hp] at hrun
        by_cases hv : s₀ ∈ vis
        · simp only [if_pos hv] at hrun
          refine ih rest' vis path ?_ hrun
          rw [hrest]
          exact ainv_stale p h hinv hpm (by rw [hmx]; exact hv)
        · simp only [if_neg hv] at hrun
          by_cases hg : p.isGoalState s₀
          · simp only [if_pos hg, Option.some.injEq] at hrun
            subst hrun
            obtain ⟨hval, hmin⟩ :=
              ainv_goal_min p h hcons hgz hinv hpm hmx hg
            exact ⟨s₀, g₀, hval, hg, hmin⟩
          · simp only [if_neg hg] at hrun
            refine ih _ (s₀ :: vis) path ?_ hrun
            rw [hrest]
            exact ainv_expand p h hcons hinv hpm hmx hv
              (Bool.eq_false_iff.mpr hg)

/-- Claim C1: when a goal is reachable, any path returned by
`uniformCostSearch` has the minimum total step cost over all valid
paths from the start state to any goal state; and `aStarSearch` with
an admissible and consistent heuristic returns a path of that same
minimum cost. -/
theorem c1_cost_optimality [DecidableEq S] (p : Problem S A)
    (heuristic : S → Nat)
    (hreach : ∃ acts t c, Reaches p p.getStartState acts t c ∧
      p.isGoalState t = true)
    (hadm : Admissible p heuristic) (hcons : Consistent p heuristic) :
    (∀ fuel path, uniformCostSearch p fuel = some (some path) →
      ∃ t c, Reaches p p.getStartState path t c ∧
        p.isGoalState t = true ∧
        ∀ acts' t' c', Reaches p p.getStartState acts' t' c' →
          p.isGoalState t' = true → c ≤ c') ∧
    (∀ fuel path, aStarSearch p heuristic fuel = some (some path) →
      ∃ t c, Reaches p p.getStartState path t c ∧
        p.isGoalState t = true ∧
        ∀ acts' t' c', Reaches p p.getStartState acts' t' c' →
          p.isGoalState t' = true → c ≤ c') := by
  have hgz : ∀ s, p.isGoalState s = true → heuristic s = 0 := by
    intro s hs
    have := hadm s [] s 0 (Reaches.nil s) hs
    omega
  constructor
  · intro fuel path hrun
    have hrun' : aStarLoop p nullHeuristic fuel
        (PriorityQueue.empty.push (p.getStartState, [], 0) 0) [] =
        some (some path) := by
      rw [aStarLoop_nullHeuristic]
      exact hrun
    refine aStarLoop_optimal p nullHeuristic
      (fun s t ht => Nat.zero_le _) (fun s _ => rfl) fuel _ [] path
      ?_ hrun'
    exact ainv_init p nullHeuristic
  · intro fuel path hrun
    exact aStarLoop_optimal p heuristic hcons hgz fuel _ [] path
      (ainv_init p heuristic) hrun

theorem c1_witness :
    (∃ t c, Reaches egProblem egProblem.getStartState [0, 0] t c ∧
      egProblem.isGoalState t = true ∧
      ∀ acts' t' c',
        Reaches egProblem egProblem.getStartState acts' t' c' →
        egProblem.isGoalState t' = true → c ≤ c') ∧
    (∃ t c, Reaches egProblem egProblem.getStartState [0, 0] t c ∧
      egProblem.isGoalState t = true ∧
      ∀ acts' t' c',
        Reaches egProblem egProblem.getStartState acts' t' c' →
        egProblem.isGoalState t' = true → c ≤ c') := by
  have h1 : Reaches egProblem 0 [0] 1 1 :=
    Reaches.snoc (Reaches.nil 0)
      (show ((1 : Nat), (0 : Nat), (1 : Nat)) ∈
        egProblem.getSuccessors 0 from by decide)
  have h2 : Reaches egProblem 0 [0, 0] 2 2 :=
    Reaches.snoc h1
      (show ((2 : Nat), (0 : Nat), (1 : Nat)) ∈
        egProblem.getSuccessors 1 from by decide)
  have hreach : ∃ acts t c,
      Reaches egProblem egProblem.getStartState acts t c ∧
        egProblem.isGoalState t = true := ⟨[0, 0], 2, 2, h2, rfl⟩
  have hadm : Admissible egProblem nullHeuristic := by
    intro s acts t c hr hg
    exact Nat.zero_le c
  have hcons : Consistent egProblem nullHeuristic := by
    intro s t ht
    exact Nat.zero_le _
  exact ⟨(c1_cost_optimality egProblem nullHeuristic hreach hadm
      hcons).1 10 [0, 0] rfl,
    (c1_cost_optimality egProblem nullHeuristic hreach hadm
      hcons).2 10 [0, 0] rfl⟩

/-- The breadth-first loop invariant, with ghost function `dv`
recording the (minimal) path length at which each visited state was
expanded: entries hold valid paths; visited states have
length-optimal recorded depths; successor edges out of visited states
are covered; recorded depths bound all queued path lengths from
below; the queue is sorted by path length and all queued lengths lie
within a window of one. -/
def BInv (p : Problem S A) (fr : Queue (S × List A)) (vis : List S) :
    Prop :=
  ∃ dv : S → Nat,
    (∀ e ∈ fr.queue, ∃ c, Reaches p p.getStartState e.2 e.1 c) ∧
    (∀ v ∈ vis,
      (∃ acts c, Reaches p p.getStartState acts v c ∧
        acts.length = dv v) ∧
      (∀ acts c, Reaches p p.getStartState acts v c →
        dv v ≤ acts.length)) ∧
    (∀ v ∈ vis, ∀ t ∈ p.getSuccessors v,
      t.1 ∈ vis ∨
        ∃ e ∈ fr.queue, e.1 = t.1 ∧ e.2.length ≤ dv v + 1) ∧
    (∀ v ∈ vis, ∀ e ∈ fr.queue, dv v ≤ e.2.length) ∧
    (p.getStartState ∈ vis ∨
      ∃ e ∈ fr.queue, e.1 = p.getStartState ∧ e.2.length = 0) ∧
    (∀ v ∈ vis, p.isGoalState v = false) ∧
    List.Pairwise (fun (a b : S × List A) =>
      a.2.length ≤ b.2.length) fr.queue ∧
    (∀ a ∈ fr.queue, ∀ b ∈ fr.queue, a.2.length ≤ b.2.length + 1)

theorem b_cover (p : Problem S A) (fr : Queue (S × List A))
    (vis : List S) (dv : S → Nat)
    (hdvlow : ∀ v ∈ vis, ∀ acts c,
      Reaches p p.getStartState acts v c → dv v ≤ acts.length)
    (hrelaxed : ∀ v ∈ vis, ∀ t ∈ p.getSuccessors v,
      t.1 ∈ vis ∨
        ∃ e ∈ fr.queue, e.1 = t.1 ∧ e.2.length ≤ dv v + 1)
    (hseeded : p.getStartState ∈ vis ∨
      ∃ e ∈ fr.queue, e.1 = p.getStartState ∧ e.2.length = 0) :
    ∀ {acts : List A} {t : S} {c : Nat},
      Reaches p p.getStartState acts t c → t ∉ vis →
      ∃ e ∈ fr.queue, e.2.length ≤ acts.length := by
  intro acts t c hr
  induction hr with
  | nil =>
    intro ht
    rcases hseeded with hst | ⟨e, he, _, hel⟩
    · exact absurd hst ht
    · exact ⟨e, he, by omega⟩
  | @snoc u t' acts' a c₁ w hr' hedge ih =>
    intro ht'
    have hlen : (acts' ++ [a]).length = acts'.length + 1 := by
      simp
    by_cases hu : u ∈ vis
    · rcases hrelaxed u hu (t', a, w) hedge with h1 | ⟨e, he, _, hel⟩
      · exact absurd h1 ht'
      · have hlow := hdvlow u hu acts' c₁ hr'
        exact ⟨e, he, by omega⟩
    · obtain ⟨e, he, hel⟩ := ih hu
      exact ⟨e, he, by omega⟩

theorem binv_init (p : Problem S A) :
    BInv p (Queue.push ⟨[]⟩ (p.getStartState, [])) [] := by
  refine ⟨fun _ => 0, ?_, ?_, ?_, ?_, ?_, ?_, ?_, ?_⟩
  · intro e hee
    simp only [Queue.push, List.nil_append, List.mem_singleton] at hee
    subst hee
    exact ⟨0, Reaches.nil _⟩
  · intro v hv; simp at hv
  · intro v hv; simp at hv
  · intro v hv; simp at hv
  · refine Or.inr ⟨(p.getStartState, []), ?_, rfl, rfl⟩
    simp [Queue.push]
  · intro v hv; simp at hv
  · simp [Queue.push]
  · intro a ha b hb
    simp only [Queue.push, List.nil_append, List.mem_singleton] at ha hb
    subst ha
    subst hb
    omega

theorem binv_stale (p : Problem S A) {s₀ : S} {path₀ : List A}
    {rest : List (S × List A)} {vis : List S}
    (hinv : BInv p ⟨(s₀, path₀) :: rest⟩ vis) (hs : s₀ ∈ vis) :
    BInv p ⟨rest⟩ vis := by
  obtain ⟨dv, hvalid, hdvopt, hrelaxed, hmono, hseeded, hnogoal,
    hsorted, hwin⟩ := hinv
  refine ⟨dv, ?_, hdvopt, ?_, ?_, ?_, hnogoal, ?_, ?_⟩
  · intro e hee
    exact hvalid e (List.mem_cons_of_mem _ hee)
  · intro v hv t ht
    by_cases htv : t.1 ∈ vis
    · exact Or.inl htv
    · rcases hrelaxed v hv t ht with h1 | ⟨e, he, hes, hel⟩
      · exact absurd h1 htv
      · rcases List.mem_cons.mp he with rfl | he'
        · exact absurd (hes ▸ hs) htv
        · exact Or.inr ⟨e, he', hes, hel⟩
  · intro v hv e hee
    exact hmono v hv e (List.mem_cons_of_mem _ hee)
  · rcases hseeded with h1 | ⟨e, he, hes, hel⟩
    · exact Or.inl h1
    · rcases List.mem_cons.mp he with rfl | he'
      · exact Or.inl (hes ▸ hs)
      · exact Or.inr ⟨e, he', hes, hel⟩
  · exact List.Pairwise.of_cons hsorted
  · intro a ha b hb
    exact hwin a (List.mem_cons_of_mem _ ha) b
      (List.mem_cons_of_mem _ hb)

theorem binv_expand [DecidableEq S] (p : Problem S A) {s₀ : S}
    {path₀ : List A} {rest : List (S × List A)} {vis : List S}
    (hinv : BInv p ⟨(s₀, path₀) :: rest⟩ vis) (hs : s₀ ∉ vis)
    (hg : p.isGoalState s₀ = false) :
    BInv p ((p.getSuccessors s₀).foldl
      (fun f t => if t.1 ∈ s₀ :: vis then f
        else f.push (t.1, path₀ ++ [t.2.1])) ⟨rest⟩) (s₀ :: vis) := by
  obtain ⟨dv, hvalid, hdvopt, hrelaxed, hmono, hseeded, hnogoal,
    hsorted, hwin⟩ := hinv
  have hq : ((p.getSuccessors s₀).foldl
      (fun (f : Queue (S × List A)) (t : S × A × Nat) =>
        if t.1 ∈ s₀ :: vis then f
        else f.push (t.1, path₀ ++ [t.2.1])) ⟨rest⟩).queue =
      rest ++ pushQList (fun (t : S × A × Nat) => t.1 ∈ s₀ :: vis)
        (fun (t : S × A × Nat) => (t.1, path₀ ++ [t.2.1]))
        (p.getSuccessors s₀) :=
    queue_fold_eq _ _ _ _
  have valid₀ : ∃ c, Reaches p p.getStartState path₀ s₀ c :=
    hvalid (s₀, path₀) (List.mem_cons_self _ _)
  have hfront : ∀ e ∈ (s₀, path₀) :: rest,
      path₀.length ≤ e.2.length := by
    intro e he
    rcases List.mem_cons.mp he with rfl | he'
    · exact le_refl _
    · exact List.rel_of_pairwise_cons hsorted he'
  have hwin0 : ∀ e ∈ (s₀, path₀) :: rest,
      e.2.length ≤ path₀.length + 1 := by
    intro e he
    exact hwin e he (s₀, path₀) (List.mem_cons_self _ _)
  have glow : ∀ acts c, Reaches p p.getStartState acts s₀ c →
      path₀.length ≤ acts.length := by
    intro acts c hr
    obtain ⟨e, he, hel⟩ := b_cover p ⟨(s₀, path₀) :: rest⟩ vis dv
      (fun v hv => (hdvopt v hv).2) hrelaxed hseeded hr hs
    have := hfront e he
    omega
  have hpushed_len : ∀ e ∈ pushQList
      (fun (t : S × A × Nat) => t.1 ∈ s₀ :: vis)
      (fun (t : S × A × Nat) => (t.1, path₀ ++ [t.2.1]))
      (p.getSuccessors s₀), e.2.length = path₀.length + 1 := by
    intro e hee
    obtain ⟨t, _, _, rfl⟩ := (mem_pushQList _ _).mp hee
    simp
  refine ⟨fun v => if v = s₀ then path₀.length else dv v,
    ?_, ?_, ?_, ?_, ?_, ?_, ?_, ?_⟩
  · intro e hee
    rw [hq] at hee
    rcases List.mem_append.mp hee with hee | hee
    · exact hvalid e (List.mem_cons_of_mem _ hee)
    · obtain ⟨t, ht, _, rfl⟩ := (mem_pushQList _ _).mp hee
      obtain ⟨c, hc⟩ := valid₀
      exact ⟨c + t.2.2, Reaches.snoc hc ht⟩
  · intro v hv
    rcases List.mem_cons.mp hv with rfl | hv'
    · dsimp only
      rw [if_pos rfl]
      obtain ⟨c, hc⟩ := valid₀
      exact ⟨⟨path₀, c, hc, rfl⟩, fun acts c' hr => glow acts c' hr⟩
    · dsimp only
      rw [if_neg (fun heq : _ = s₀ => hs (heq ▸ hv'))]
      exact hdvopt v hv'
  · intro v hv t ht
    rcases List.mem_cons.mp hv with rfl | hv'
    · by_cases htv : t.1 ∈ v :: vis
      · exact Or.inl htv
      · refine Or.inr ⟨(t.1, path₀ ++ [t.2.1]), ?_, rfl, ?_⟩
        · rw [hq]
          exact List.mem_append.mpr (Or.inr
            ((mem_pushQList _ _).mpr ⟨t, ht, htv, rfl⟩))
        · dsimp only
          rw [if_pos rfl]
          simp
    · dsimp only
      rw [if_neg (fun heq : _ = s₀ => hs (heq ▸ hv'))]
      rcases hrelaxed v hv' t ht with h1 | ⟨e, he, hes, hel⟩
      · exact Or.inl (List.mem_cons_of_mem _ h1)
      · rcases List.mem_cons.mp he with rfl | he'
        · refine Or.inl ?_
          rw [← hes]
          exact List.mem_cons_self _ _
        · refine Or.inr ⟨e, ?_, hes, hel⟩
          rw [hq]
          exact List.mem_append.mpr (Or.inl he')
  · intro v hv e hee
    rw [hq] at hee
    rcases List.mem_cons.mp hv with rfl | hv'
    · dsimp only
      rw [if_pos rfl]
      rcases List.mem_append.mp hee with hee | hee
      · exact hfront e (List.mem_cons_of_mem _ hee)
      · rw [hpushed_len e hee]
        omega
    · dsimp only
      rw [if_neg (fun heq : _ = s₀ => hs (heq ▸ hv'))]
      rcases List.mem_append.mp hee with hee | hee
      · exact hmono v hv' e (List.mem_cons_of_mem _ hee)
      · rw [hpushed_len e hee]
        have := hmono v hv' (s₀, path₀) (List.mem_cons_self _ _)
        have h2 : (s₀, path₀).2.length = path₀.length := rfl
        omega
  · rcases hseeded with h1 | ⟨e, he, hes, hel⟩
    · exact Or.inl (List.mem_cons_of_mem _ h1)
    · rcases List.mem_cons.mp he with rfl | he'
      · refine Or.inl ?_
        rw [← hes]
        exact List.mem_cons_self _ _
      · refine Or.inr ⟨e, ?_, hes, hel⟩
        rw [hq]
        exact List.mem_append.mpr (Or.inl he')
  · intro v hv
    rcases List.mem_cons.mp hv with rfl | hv'
    · exact hg
    · exact hnogoal v hv'
  · rw [hq]
    rw [List.pairwise_append]
    refine ⟨List.Pairwise.of_cons hsorted, ?_, ?_⟩
    · refine List.pairwise_of_forall_mem_list ?_
      intro a ha b hb
      rw [hpushed_len a ha, hpushed_len b hb]
    · intro a ha b hb
      rw [hpushed_len b hb]
      have := hwin0 a (List.mem_cons_of_mem _ ha)
      omega
  · intro a ha b hb
    rw [hq] at ha hb
    rcases List.mem_append.mp ha with ha' | ha' <;>
      rcases List.mem_append.mp hb with hb' | hb'
    · exact hwin a (List.mem_cons_of_mem _ ha') b
        (List.mem_cons_of_mem _ hb')
    · rw [hpushed_len b hb']
      have := hwin0 a (List.mem_cons_of_mem _ ha')
      omega
    · rw [hpushed_len a ha']
      have := hfront b (List.mem_cons_of_mem _ hb')
      omega
    · rw [hpushed_len a ha', hpushed_len b hb']
      omega

theorem binv_goal_min (p : Problem S A) {s₀ : S} {path₀ : List A}
    {rest : List (S × List A)} {vis : List S}
    (hinv : BInv p ⟨(s₀, path₀) :: rest⟩ vis)
    (hgoal : p.isGoalState s₀ = true) :
    (∃ c, Reaches p p.getStartState path₀ s₀ c) ∧
      ∀ acts' t' c', Reaches p p.getStartState acts' t' c' →
        p.isGoalState t' = true → path₀.length ≤ acts'.length := by
  obtain ⟨dv, hvalid, hdvopt, hrelaxed, hmono, hseeded, hnogoal,
    hsorted, hwin⟩ := hinv
  have valid₀ : ∃ c, Reaches p p.getStartState path₀ s₀ c :=
    hvalid (s₀, path₀) (List.mem_cons_self _ _)
  have hfront : ∀ e ∈ (s₀, path₀) :: rest,
      path₀.length ≤ e.2.length := by
    intro e he
    rcases List.mem_cons.mp he with rfl | he'
    · exact le_refl _
    · exact List.rel_of_pairwise_cons hsorted he'
  refine ⟨valid₀, ?_⟩
  intro acts' t' c' hr' hg'
  have ht'vis : t' ∉ vis := by
    intro hvt'
    have := hnogoal t' hvt'
    rw [hg'] at this
    exact absurd this (by decide)
  obtain ⟨e, he, hel⟩ := b_cover p ⟨(s₀, path₀) :: rest⟩ vis dv
    (fun v hv => (hdvopt v hv).2) hrelaxed hseeded hr' ht'vis
  have := hfront e he
  omega

theorem bfsLoop_optimal [DecidableEq S] (p : Problem S A) :
    ∀ (fuel : Nat) (fr : Queue (S × List A)) (vis : List S)
      (path : List A), BInv p fr vis →
      bfsLoop p fuel fr vis = some (some path) →
      ∃ t c, Reaches p p.getStartState path t c ∧
        p.isGoalState t = true ∧
        ∀ acts' t' c', Reaches p p.getStartState acts' t' c' →
          p.isGoalState t' = true → path.length ≤ acts'.length := by
  intro fuel
  induction fuel with
  | zero =>
    intro fr vis path hinv hrun
    simp [bfsLoop] at hrun
  | succ n ih =>
    intro fr vis path hinv hrun
    by_cases he : fr.isEmpty
    · simp [bfsLoop, he] at hrun
    · cases hl : fr.queue with
      | nil => exact absurd (by simp [Queue.isEmpty, hl]) he
      | cons e₀ rest =>
        obtain ⟨s₀, path₀⟩ := e₀
        have hpop : fr.pop = some ((s₀, path₀), ⟨rest⟩) := by
          simp [Queue.pop, hl]
        have hinv' : BInv p ⟨(s₀, path₀) :: rest⟩ vis := by
          rw [← hl]
          exact hinv
        simp only [bfsLoop, if_neg he, hpop] at hrun
        by_cases hv : s₀ ∈ vis
        · simp only [if_pos hv] at hrun
          exact ih ⟨rest⟩ vis path (binv_stale p hinv' hv) hrun
        · simp only [if_neg hv] at hrun
          by_cases hg : p.isGoalState s₀
          · simp only [if_pos hg, Option.some.injEq] at hrun
            subst hrun
            obtain ⟨⟨c, hc⟩, hmin⟩ := binv_goal_min p hinv' hg
            exact ⟨s₀, c, hc, hg, hmin⟩
          · simp only [if_neg hg] at hrun
            exact ih _ (s₀ :: vis) path
              (binv_expand p hinv' hv (Bool.eq_false_iff.mpr hg)) hrun

/-- Claim C5: on a problem with unit step costs where a goal is
reachable, any path returned by `breadthFirstSearch` has the fewest
actions among all valid paths from the start state to any goal
state. -/
theorem c5_bfs_fewest_actions [DecidableEq S] (p : Problem S A)
    (hunit : ∀ s, ∀ t ∈ p.getSuccessors s, t.2.2 = 1)
    (hreach : ∃ acts t c, Reaches p p.getStartState acts t c ∧
      p.isGoalState t = true) :
    ∀ fuel path, breadthFirstSearch p fuel = some (some path) →
      ∃ t c, Reaches p p.getStartState path t c ∧
        p.isGoalState t = true ∧
        ∀ acts' t' c', Reaches p p.getStartState acts' t' c' →
          p.isGoalState t' = true → path.length ≤ acts'.length :=
  fun fuel path hrun =>
    bfsLoop_optimal p fuel _ [] path (binv_init p) hrun

theorem c5_witness :
    ∃ t c, Reaches egUnit egUnit.getStartState [1] t c ∧
      egUnit.isGoalState t = true ∧
      ∀ acts' t' c', Reaches egUnit egUnit.getStartState acts' t' c' →
        egUnit.isGoalState t' = true →
        ([1] : List Nat).length ≤ acts'.length := by
  have hunit : ∀ s, ∀ t ∈ egUnit.getSuccessors s, t.2.2 = 1 := by
    intro s t ht
    have ht' : t ∈ (if s = 0 then
        [((1 : Nat), (0 : Nat), (1 : Nat)), (2, 1, 1)]
      else if s = 1 then [(2, 0, 1)] else []) := ht
    split_ifs at ht' with h0 h1
    · rcases List.mem_cons.mp ht' with rfl | ht''
      · rfl
      · rcases List.mem_cons.mp ht'' with rfl | ht'''
        · rfl
        · simp at ht'''
    · rcases List.mem_cons.mp ht' with rfl | ht''
      · rfl
      · simp at ht''
    · simp at ht'
  have hreach : ∃ acts t c,
      Reaches egUnit egUnit.getStartState acts t c ∧
        egUnit.isGoalState t = true :=
    ⟨[1], 2, 1,
      Reaches.snoc (Reaches.nil 0)
        (show ((2 : Nat), (1 : Nat), (1 : Nat)) ∈
          egUnit.getSuccessors 0 from by decide), rfl⟩
  exact c5_bfs_fewest_actions egUnit hunit hreach 10 [1] rfl

end AISearch
